import Mathlib

/-!
Shallow embedding of `pysisyphus/InternalCoordinates.py`: detection of
bonds / bending angles / dihedrals from a Cartesian geometry, and the
Wilson B-matrix row builders, together with proofs about the claims of
the specification.

Conventions of the embedding:
* Cartesian coordinates are rational triples (`QVec3`) on the input side,
  so that the combinatorial pipeline (bond detection, fragment analysis,
  angle/dihedral index generation) is executable and decidable; the
  analytic B-matrix rows are computed over `ℝ` (square roots and inverse
  trigonometric functions are involved).
* Python exceptions are modelled by `Except Err`: `KeyError` on the
  covalent-radius table is `Err.unknownElement` (the spec's
  `UnknownElementError`), `list.pop` / indexing failures are
  `Err.indexError`, and a failing `assert`/tuple-unpacking in
  `sort_by_central` is `Err.assertionError`.
* The comparison `distance ≤ threshold` of `get_bond_indices` is embedded
  on rationals as `0 ≤ threshold ∧ distance² ≤ threshold²`, which is
  equivalent over the reals (lemma `bondFlag_iff_sqrt`), keeping the
  detector decidable.
-/

/-- Errors of the pipeline: `unknownElement s` models the `KeyError`
raised by `COVALENT_RADII[s]` (the spec's `UnknownElementError`),
`indexError` models `list.pop(0)` / sequence indexing on an empty or too
short list, `assertionError` models the `assert` and the fixed-size tuple
unpacking in `sort_by_central`. -/
inductive Err : Type
  | unknownElement : String → Err
  | indexError : Err
  | assertionError : Err
deriving DecidableEq, Repr

instance {ε α : Type} [DecidableEq ε] [DecidableEq α] : DecidableEq (Except ε α) := by
  intro x y
  cases x <;> cases y
  case error.error a b =>
    exact decidable_of_iff (a = b) (by simp)
  case ok.ok a b =>
    exact decidable_of_iff (a = b) (by simp)
  all_goals exact isFalse (by intro h; cases h)

/-- A Cartesian position, one row of `geom.coords.reshape(-1, 3)`. -/
abbrev QVec3 : Type := ℚ × ℚ × ℚ

/-- Squared Euclidean distance between two positions; `pdist` of the
source computes the square roots of these values. -/
def qdistSq (a b : QVec3) : ℚ :=
  (a.1 - b.1) ^ 2 + (a.2.1 - b.2.1) ^ 2 + (a.2.2 - b.2.2) ^ 2

/-- The external geometry container: element symbols (`geom.atoms`) and
Cartesian coordinates (`geom.coords`, already reshaped to `(-1, 3)`). -/
structure Geom : Type where
  atoms : List String
  coords : List QVec3

/-- `itertools.combinations(range(n), 2)`: all index pairs `(i, j)` with
`i < j < n`, in lexicographic order. -/
def atomPairs (n : ℕ) : List (ℕ × ℕ) :=
  (List.range n).flatMap (fun i => ((List.range n).filter (fun j => i < j)).map (fun j => (i, j)))

lemma mem_atomPairs {n : ℕ} {p : ℕ × ℕ} : p ∈ atomPairs n ↔ p.1 < p.2 ∧ p.2 < n := by
  obtain ⟨i, j⟩ := p
  simp only [atomPairs, List.mem_flatMap, List.mem_map, List.mem_filter, List.mem_range,
    Prod.mk.injEq]
  constructor
  · rintro ⟨a, ha, b, ⟨hb, hab⟩, rfl, rfl⟩
    exact ⟨of_decide_eq_true hab, hb⟩
  · rintro ⟨hij, hj⟩
    exact ⟨i, lt_trans hij hj, j, ⟨hj, decide_eq_true hij⟩, rfl, rfl⟩

/-- `str.lower()` of Python, modelled as ASCII per-character lower-casing
(executable, unlike the partial `String.mapAux` behind `String.toLower`). -/
def strLower (s : String) : String :=
  ⟨s.data.map Char.toLower⟩

/-- The per-pair loop of `get_bond_indices`: for each atom pair, look the
two atoms up (`geom.atoms[i]`), lower-case the symbols, look the covalent
radii up in the table `CR`, and record `factor * (cov_rad1 + cov_rad2)`.
A missing radius raises the spec's `UnknownElementError`. -/
def covRadSums (CR : String → Option ℚ) (atoms : List String) (factor : ℚ) :
    List (ℕ × ℕ) → Except Err (List ℚ)
  | [] => .ok []
  | p :: rest =>
    match atoms.get? p.1 with
    | none => .error .indexError
    | some atom1 =>
      match atoms.get? p.2 with
      | none => .error .indexError
      | some atom2 =>
        match CR (strLower atom1) with
        | none => .error (.unknownElement (strLower atom1))
        | some cov_rad1 =>
          match CR (strLower atom2) with
          | none => .error (.unknownElement (strLower atom2))
          | some cov_rad2 =>
            match covRadSums CR atoms factor rest with
            | .error e => .error e
            | .ok sums => .ok (factor * (cov_rad1 + cov_rad2) :: sums)

/-- The comparison `cdm <= cov_rad_sums` of the source, stated on the
squared distance: over the reals, `√dsq ≤ s ↔ 0 ≤ s ∧ dsq ≤ s²`
(see `bondFlag_iff_sqrt`). -/
def bondFlag (dsq s : ℚ) : Bool :=
  decide (0 ≤ s ∧ dsq ≤ s ^ 2)

/-- Boolean-mask selection `atom_indices[bond_flags]`: keep the pairs
whose distance passes the threshold. -/
def selectBonds : List (ℕ × ℕ) → List ℚ → List ℚ → List (ℕ × ℕ)
  | p :: ps, d :: ds, s :: ss =>
    if bondFlag d s then p :: selectBonds ps ds ss else selectBonds ps ds ss
  | _, _, _ => []

/-- Decreasing measure for the inner fragment loop: remaining positions
to visit, plus twice the number of remaining fragments disjoint from the
current bond (each such fragment triggers one append of the bond set,
which itself is visited later but intersects the bond). -/
def fragMeasure (i j idx : ℕ) (frags : List (Finset ℕ)) : ℕ :=
  (frags.length - idx) +
    2 * ((frags.drop idx).countP (fun f => decide ((({i, j} : Finset ℕ) ∩ f) = ∅)))

/-- The inner loop of `make_fragments` for one bond `(i, j)`:
`for fragment in fragments:` iterates by position over a list that is
mutated in place (`fragment |= bi_set` replaces the fragment by its union
with the bond set) and extended (`fragments.append(bi_set)`) while being
iterated, so appended fragments are visited too. -/
def fragLoop (i j idx : ℕ) (frags : List (Finset ℕ)) : List (Finset ℕ) :=
  if h : idx < frags.length then
    if hc : ((({i, j} : Finset ℕ)) ∩ frags.get ⟨idx, h⟩).Nonempty then
      fragLoop i j (idx + 1) (frags.set idx (frags.get ⟨idx, h⟩ ∪ {i, j}))
    else
      fragLoop i j (idx + 1) (frags ++ [({i, j} : Finset ℕ)])
  else frags
termination_by fragMeasure i j idx frags
decreasing_by
  · simp only [fragMeasure, List.length_set, List.drop_set_of_lt _ _ (Nat.lt_succ_self idx),
      Nat.succ_eq_add_one]
    have hcount : (frags.drop idx).countP
        (fun f => decide ((({i, j} : Finset ℕ) ∩ f) = ∅)) =
        ((frags.drop (idx + 1)).countP
          (fun f => decide ((({i, j} : Finset ℕ) ∩ f) = ∅))) := by
      rw [List.drop_eq_getElem_cons h, List.countP_cons]
      have : ((({i, j} : Finset ℕ)) ∩ frags[idx]) ≠ ∅ := by
        rw [← Finset.nonempty_iff_ne_empty]
        exact hc
      simp [this]
    rw [hcount]
    omega
  · simp only [fragMeasure, List.length_append, List.length_singleton,
      List.drop_append_of_le_length (Nat.succ_le_of_lt h), Nat.succ_eq_add_one]
    have hne : ((({i, j} : Finset ℕ)) ∩ frags[idx]) = ∅ := by
      rw [← Finset.not_nonempty_iff_eq_empty]
      exact hc
    have hcount : (frags.drop idx).countP
        (fun f => decide ((({i, j} : Finset ℕ) ∩ f) = ∅)) =
        ((frags.drop (idx + 1)).countP
          (fun f => decide ((({i, j} : Finset ℕ) ∩ f) = ∅))) + 1 := by
      rw [List.drop_eq_getElem_cons h, List.countP_cons]
      simp [hne]
    have hself : (List.countP (fun f => decide ((({i, j} : Finset ℕ) ∩ f) = ∅))
        [({i, j} : Finset ℕ)]) = 0 := by
      have : (({i, j} : Finset ℕ) ∩ {i, j}) ≠ ∅ := by
        rw [← Finset.nonempty_iff_ne_empty]
        exact ⟨i, by simp⟩
      simp [List.countP_cons, this]
    rw [List.countP_append, hcount, hself]
    omega

/-- `make_fragments`: pop the first bond as the seed fragment (raising
`IndexError` on an empty bond list), then run the in-place merge loop for
every remaining bond. -/
def make_fragments : List (ℕ × ℕ) → Except Err (List (Finset ℕ))
  | [] => .error .indexError
  | b :: rest =>
    .ok (rest.foldl (fun frags p => fragLoop p.1 p.2 0 frags) [({b.1, b.2} : Finset ℕ)])

/-- `get_bond_indices`: condensed distance matrix over all pairs,
covalent-radius thresholds, boolean-mask selection, and the (diagnostic,
but exception-propagating) call to `make_fragments`. -/
def get_bond_indices (CR : String → Option ℚ) (geom : Geom) (factor : ℚ) :
    Except Err (List (ℕ × ℕ)) :=
  let n := geom.coords.length
  let ps := atomPairs n
  let cdmSq := ps.map (fun p => qdistSq (geom.coords.getD p.1 0) (geom.coords.getD p.2 0))
  match covRadSums CR geom.atoms factor ps with
  | .error e => .error e
  | .ok sums =>
    let bond_indices := selectBonds ps cdmSq sums
    match make_fragments bond_indices with
    | .error e => .error e
    | .ok _ => .ok bond_indices

/-- The set `{frozenset(bi) for bi in bond_indices}`: bond pairs as
2-element index sets, duplicates removed. -/
def bondSet (p : ℕ × ℕ) : Finset ℕ := {p.1, p.2}

/-- The deduplicated list of bond sets iterated by
`get_bending_indices`. -/
def bondSetsOf (bonds : List (ℕ × ℕ)) : List (Finset ℕ) :=
  (bonds.map bondSet).dedup

/-- `itertools.combinations(l, 2)`: all unordered pairs of distinct
positions, each once. -/
def listPairs {α : Type} : List α → List (α × α)
  | [] => []
  | x :: xs => (xs.map (fun y => (x, y))) ++ listPairs xs

/-- `sort_by_central`: the shared atom of two bond sets goes to the middle
position, the two non-shared atoms to the outside.  The `assert
len(central_set) == 1` and the two-element unpacking of
`union - central_set` are modelled by the cardinality guard (`none`
becomes `AssertionError` at the call site); the arbitrary set-derived
order of the two terminals is instantiated as ascending. -/
def sort_by_central (set1 set2 : Finset ℕ) : Option ((ℕ × ℕ × ℕ) × ℕ) :=
  let central_set := set1 ∩ set2
  let union := set1 ∪ set2
  if h : central_set.card = 1 ∧ (union \ central_set).card = 2 then
    let c := central_set.min' (Finset.card_pos.mp (by omega))
    let t1 := (union \ central_set).min' (Finset.card_pos.mp (by omega))
    let t2 := (union \ central_set).max' (Finset.card_pos.mp (by omega))
    some ((t1, c, t2), c)
  else none

/-- The loop of `get_bending_indices` over all unordered pairs of
distinct bond sets: a pair whose union has exactly three atoms yields one
angle triple via `sort_by_central`. -/
def bendLoop : List (Finset ℕ × Finset ℕ) → Except Err (List (ℕ × ℕ × ℕ))
  | [] => .ok []
  | (set1, set2) :: rest =>
    if (set1 ∪ set2).card = 3 then
      match sort_by_central set1 set2 with
      | some (as_tpl, _) =>
        match bendLoop rest with
        | .error e => .error e
        | .ok out => .ok (as_tpl :: out)
      | none => .error .assertionError
    else bendLoop rest

/-- `get_bending_indices`. -/
def get_bending_indices (bond_indices : List (ℕ × ℕ)) : Except Err (List (ℕ × ℕ × ℕ)) :=
  bendLoop (listPairs (bondSetsOf bond_indices))

/-- `itertools.product(bond_inds, bend_inds)`. -/
def listProd {α β : Type} (xs : List α) (ys : List β) : List (α × β) :=
  xs.flatMap (fun x => ys.map (fun y => (x, y)))

/-- One step of the `get_dihedral_indices` loop for a `(bond, bend)`
pair, threading the accumulated `dihedral_inds` and `dihedral_sets`.
A dihedral is formed when the bond shares exactly one atom with the
bend's outer pair and avoids its central atom; the bond's other atom is
prepended or appended depending on which outer atom is shared, and a
candidate whose atom set was already produced is skipped. -/
def dihedStep (acc : List (List ℕ) × List (Finset ℕ)) (pr : (ℕ × ℕ) × (ℕ × ℕ × ℕ)) :
    List (List ℕ) × List (Finset ℕ) :=
  let bond := pr.1
  let bend := pr.2
  let central := bend.2.1
  let bes : Finset ℕ := {bend.1, bend.2.2}
  let bois : Finset ℕ := {bond.1, bond.2}
  if (bes ∩ bois).card = 1 ∧ central ∉ bois then
    match (bois ∩ ({bend.1, bend.2.1, bend.2.2} : Finset ℕ)).sort (· ≤ ·) with
    | [intersect] =>
      let terminal := if bond.1 = intersect then bond.2 else bond.1
      let dihedral_ind : List ℕ :=
        if intersect = bend.1 then [terminal, bend.1, bend.2.1, bend.2.2]
        else [bend.1, bend.2.1, bend.2.2, terminal]
      let dihedral_set : Finset ℕ := dihedral_ind.toFinset
      if dihedral_set ∈ acc.2 then acc
      else (acc.1 ++ [dihedral_ind], acc.2 ++ [dihedral_set])
    | _ => acc
  else acc

/-- `get_dihedral_indices`: fold the step over the product of bonds and
bends, returning the accumulated quadruples. -/
def get_dihedral_indices (bond_inds : List (ℕ × ℕ)) (bend_inds : List (ℕ × ℕ × ℕ)) :
    List (List ℕ) :=
  ((listProd bond_inds bend_inds).foldl dihedStep ([], [])).1

/-- A real 3-vector (one atom block of a B-matrix row). -/
abbrev Vec3 : Type := ℝ × ℝ × ℝ

/-- Dot product `a.dot(b)`. -/
noncomputable def vdot (a b : Vec3) : ℝ :=
  a.1 * b.1 + a.2.1 * b.2.1 + a.2.2 * b.2.2

/-- Cross product `np.cross(a, b)`. -/
noncomputable def vcross (a b : Vec3) : Vec3 :=
  (a.2.1 * b.2.2 - a.2.2 * b.2.1,
   a.2.2 * b.1 - a.1 * b.2.2,
   a.1 * b.2.1 - a.2.1 * b.1)

/-- Componentwise division of a vector by a scalar, `v / c`. -/
noncomputable def vdiv (v : Vec3) (c : ℝ) : Vec3 :=
  (v.1 / c, v.2.1 / c, v.2.2 / c)

/-- Componentwise scaling `v * c` (scalar factor on a numpy array). -/
noncomputable def vscale (v : Vec3) (c : ℝ) : Vec3 :=
  (v.1 * c, v.2.1 * c, v.2.2 * c)

/-- `np.linalg.norm(v)`. -/
noncomputable def vnorm (v : Vec3) : ℝ :=
  Real.sqrt (vdot v v)

/-- `row.flatten()` for a zero-initialised `(N, 3)` array written through
a per-atom block function: blocks of atoms `0, …, N-1` in order. -/
noncomputable def flattenRow : ℕ → (ℕ → Vec3) → List ℝ
  | 0, _ => []
  | n + 1, row => flattenRow n row ++ [(row n).1, (row n).2.1, (row n).2.2]

/-- The atom block at index `k` of a flattened row (entries `3k…3k+2`). -/
noncomputable def blockOf (r : List ℝ) (k : ℕ) : Vec3 :=
  (r.getD (3 * k) 0, r.getD (3 * k + 1) 0, r.getD (3 * k + 2) 0)

/-- The per-atom block function of `get_bond_B` for bond `(n, m)`:
`row[m] = bond_normed`, `row[n] = -bond_normed`, zero elsewhere; writes
happen in source order `m` then `n`, so for coinciding indices the later
write wins. -/
noncomputable def bondRowFun (coords : ℕ → Vec3) (bond_ind : ℕ × ℕ) : ℕ → Vec3 :=
  let n := bond_ind.1
  let m := bond_ind.2
  let bond := coords m - coords n
  let bond_length := vnorm bond
  let bond_normed := vdiv bond bond_length
  fun k => if k = n then -bond_normed else if k = m then bond_normed else 0

/-- `get_bond_B`: the flattened length-`3N` bond row. -/
noncomputable def get_bond_B (N : ℕ) (coords : ℕ → Vec3) (bond_ind : ℕ × ℕ) : List ℝ :=
  flattenRow N (bondRowFun coords bond_ind)

/-- `are_parallel` of `get_angle_B`. -/
noncomputable def are_parallel (vec1 vec2 : Vec3) : Prop :=
  |Real.arccos (vdot vec1 vec2)| > Real.pi - 1 / 1000000

open Classical in
/-- The per-atom block function of `get_angle_B` for angle `(m, o, n)`:
unit vectors along the two bonds, the auxiliary `w` (with the
near-antiparallel fallback), and blocks
`row[m] = first_term`, `row[o] = -first_term - second_term`,
`row[n] = second_term` (writes in source order `m`, `o`, `n`). -/
noncomputable def angleRowFun (coords : ℕ → Vec3) (angle_ind : ℕ × ℕ × ℕ) : ℕ → Vec3 :=
  let m := angle_ind.1
  let o := angle_ind.2.1
  let n := angle_ind.2.2
  let u_dash := coords m - coords o
  let v_dash := coords n - coords o
  let u_norm := vnorm u_dash
  let v_norm := vnorm v_dash
  let u := vdiv u_dash u_norm
  let v := vdiv v_dash v_norm
  let w_dash :=
    if are_parallel u v then
      let tmp_vec : Vec3 := (1, -1, 1)
      let tmp_vec2 : Vec3 :=
        if are_parallel u tmp_vec ∧ are_parallel v tmp_vec then (-1, 1, 1) else tmp_vec
      vcross u tmp_vec2
    else vcross u v
  let w_norm := vnorm w_dash
  let w := vdiv w_dash w_norm
  let uxw := vcross u w
  let wxv := vcross w v
  let first_term := vdiv uxw u_norm
  let second_term := vdiv wxv v_norm
  fun k =>
    if k = n then second_term
    else if k = o then -first_term - second_term
    else if k = m then first_term
    else 0

/-- `get_angle_B`: the flattened length-`3N` angle row. -/
noncomputable def get_angle_B (N : ℕ) (coords : ℕ → Vec3) (angle_ind : ℕ × ℕ × ℕ) : List ℝ :=
  flattenRow N (angleRowFun coords angle_ind)

/-- The per-atom block function of `get_dihedral_B` for `(m, o, p, n)`;
the dihedral value itself (clamped cosine and `arccos`) is computed but
never used by the row.  Blocks `row[m] = first_term`,
`row[n] = -second_term`, `row[o] = -first_term + third_term`,
`row[p] = second_term - third_term` (writes in source order
`m`, `n`, `o`, `p`). -/
noncomputable def dihedralRowFun (coords : ℕ → Vec3) (m o p n : ℕ) : ℕ → Vec3 :=
  let u_dash := coords m - coords o
  let v_dash := coords n - coords p
  let w_dash := coords p - coords o
  let u_norm := vnorm u_dash
  let v_norm := vnorm v_dash
  let w_norm := vnorm w_dash
  let u := vdiv u_dash u_norm
  let v := vdiv v_dash v_norm
  let w := vdiv w_dash w_norm
  let phi_u := Real.arccos (vdot u w)
  let phi_v := Real.arccos (vdot w v)
  let uxw := vcross u w
  let vxw := vcross v w
  let cos_dihed := vdot uxw vxw / (Real.sin phi_u * Real.sin phi_v)
  let cos_dihed2 := min cos_dihed 1
  let cos_dihed3 := max cos_dihed2 (-1)
  let dihedral := Real.arccos cos_dihed3
  let sin2_u := Real.sin phi_u ^ 2
  let sin2_v := Real.sin phi_v ^ 2
  let first_term := vdiv uxw (u_norm * sin2_u)
  let second_term := vdiv vxw (v_norm * sin2_v)
  let third_term :=
    vdiv (vscale uxw (Real.cos phi_u)) (w_norm * sin2_u) -
      vdiv (vscale vxw (Real.cos phi_v)) (w_norm * sin2_v)
  fun k =>
    if k = p then second_term - third_term
    else if k = o then -first_term + third_term
    else if k = n then -second_term
    else if k = m then first_term
    else 0

/-- `get_dihedral_B`: the flattened length-`3N` dihedral row. -/
noncomputable def get_dihedral_B (N : ℕ) (coords : ℕ → Vec3) (m o p n : ℕ) : List ℝ :=
  flattenRow N (dihedralRowFun coords m o p n)

/-- The Cartesian coordinates of the geometry as real 3-vectors, indexed
by atom. -/
noncomputable def coordsR (geom : Geom) : ℕ → Vec3 :=
  fun i =>
    ((((geom.coords.getD i 0).1 : ℝ)),
     (((geom.coords.getD i 0).2.1 : ℝ)),
     (((geom.coords.getD i 0).2.2 : ℝ)))

/-- `get_B_mat`: bond, angle and dihedral index generation, then one row
per coordinate, stacked bonds first, then angles, then dihedrals.  A
dihedral entry that is not a quadruple would fail Python's unpacking;
the generated entries always are (lemma `dihedral_inds_shape`). -/
noncomputable def get_B_mat (CR : String → Option ℚ) (geom : Geom) (factor : ℚ) :
    Except Err (List (List ℝ)) :=
  match get_bond_indices CR geom factor with
  | .error e => .error e
  | .ok bond_inds =>
    match get_bending_indices bond_inds with
    | .error e => .error e
    | .ok bend_inds =>
      let dihedral_inds := get_dihedral_indices bond_inds bend_inds
      let N := geom.coords.length
      let bond_rows := bond_inds.map (fun ind => get_bond_B N (coordsR geom) ind)
      let bend_rows := bend_inds.map (fun ind => get_angle_B N (coordsR geom) ind)
      let dihed_rows := dihedral_inds.map (fun ind =>
        match ind with
        | [m, o, p, n] => get_dihedral_B N (coordsR geom) m o p n
        | _ => [])
      .ok (bond_rows ++ bend_rows ++ dihed_rows)

/-- Modelled from the claim's refinement variant: `get_dihedral_B` with
the clamped-cosine / `arccos` computation of the dihedral value removed,
everything else verbatim. -/
noncomputable def dihedralRowFunNoAngle (coords : ℕ → Vec3) (m o p n : ℕ) : ℕ → Vec3 :=
  let u_dash := coords m - coords o
  let v_dash := coords n - coords p
  let w_dash := coords p - coords o
  let u_norm := vnorm u_dash
  let v_norm := vnorm v_dash
  let w_norm := vnorm w_dash
  let u := vdiv u_dash u_norm
  let v := vdiv v_dash v_norm
  let w := vdiv w_dash w_norm
  let phi_u := Real.arccos (vdot u w)
  let phi_v := Real.arccos (vdot w v)
  let uxw := vcross u w
  let vxw := vcross v w
  let sin2_u := Real.sin phi_u ^ 2
  let sin2_v := Real.sin phi_v ^ 2
  let first_term := vdiv uxw (u_norm * sin2_u)
  let second_term := vdiv vxw (v_norm * sin2_v)
  let third_term :=
    vdiv (vscale uxw (Real.cos phi_u)) (w_norm * sin2_u) -
      vdiv (vscale vxw (Real.cos phi_v)) (w_norm * sin2_v)
  fun k =>
    if k = p then second_term - third_term
    else if k = o then -first_term + third_term
    else if k = n then -second_term
    else if k = m then first_term
    else 0

/-- The flattened row of the no-dihedral-value variant. -/
noncomputable def get_dihedral_B_noAngle (N : ℕ) (coords : ℕ → Vec3) (m o p n : ℕ) :
    List ℝ :=
  flattenRow N (dihedralRowFunNoAngle coords m o p n)

/-- Covalent-radius table used by the concrete examples:
oxygen `1/2`, hydrogen `1/8`, nothing else. -/
def exCR : String → Option ℚ :=
  fun s => if s = "o" then some (1/2) else if s = "h" then some (1/8) else none

/-- A bent three-atom geometry (O at the origin, two H at distance `1/2`
along the axes): with factor 1 the bonds are exactly O–H and O–H. -/
def geomW : Geom :=
  ⟨["O", "H", "H"], [(0, 0, 0), (1/2, 0, 0), (0, 1/2, 0)]⟩

/-- `geomW` plus a fourth hydrogen far away on the x-axis: an isolated
atom. -/
def geomIso : Geom :=
  ⟨["O", "H", "H", "H"], [(0, 0, 0), (1/2, 0, 0), (0, 1/2, 0), (100, 0, 0)]⟩

/-- Two hydrogens too far apart to bond: every atom is isolated. -/
def geomFar : Geom :=
  ⟨["H", "H"], [(0, 0, 0), (100, 0, 0)]⟩

/-- A single atom whose element symbol is not in the radius table. -/
def geomX1 : Geom :=
  ⟨["X"], [(0, 0, 0)]⟩

/-- Two atoms, the second with an element symbol not in the radius
table. -/
def geomX2 : Geom :=
  ⟨["H", "X"], [(0, 0, 0), (1, 0, 0)]⟩

/-- Concrete positions for the bond-row example: atom 0 at the origin,
every other atom at `(1,0,0)`. -/
noncomputable def exCoords : ℕ → Vec3 :=
  fun k => if k = 0 then (0, 0, 0) else (1, 0, 0)

/-- Concrete positions for the angle-row example: `(1,0,0)`, origin,
`(0,1,0)` for atoms `0`, `1`, `2`. -/
noncomputable def exACoords : ℕ → Vec3 :=
  fun k => if k = 0 then (1, 0, 0) else if k = 1 then (0, 0, 0) else (0, 1, 0)

/-- Concrete positions for the dihedral-row example: atoms `0..3` at
`(1,0,0)`, origin, `(0,0,1)`, `(0,1,1)`. -/
noncomputable def exDCoords : ℕ → Vec3 :=
  fun k =>
    if k = 0 then (1, 0, 0)
    else if k = 1 then (0, 0, 0)
    else if k = 2 then (0, 0, 1)
    else (0, 1, 1)

lemma flattenRow_length (N : ℕ) (row : ℕ → Vec3) : (flattenRow N row).length = 3 * N := by
  induction N with
  | zero => rfl
  | succ n ih =>
    simp only [flattenRow, List.length_append, ih]
    simp
    omega

lemma flattenRow_succ (N : ℕ) (row : ℕ → Vec3) :
    flattenRow (N + 1) row = flattenRow N row ++ [(row N).1, (row N).2.1, (row N).2.2] := rfl

lemma blockOf_flattenRow {N k : ℕ} (row : ℕ → Vec3) (hk : k < N) :
    blockOf (flattenRow N row) k = row k := by
  induction N with
  | zero => omega
  | succ n ih =>
    have hlen := flattenRow_length n row
    rcases Nat.lt_succ_iff_lt_or_eq.mp hk with h | rfl
    · have h0 : 3 * k < (flattenRow n row).length := by omega
      have h1 : 3 * k + 1 < (flattenRow n row).length := by omega
      have h2 : 3 * k + 2 < (flattenRow n row).length := by omega
      have : blockOf (flattenRow (n + 1) row) k = blockOf (flattenRow n row) k := by
        unfold blockOf
        rw [flattenRow_succ, List.getD_append _ _ _ _ h0, List.getD_append _ _ _ _ h1,
          List.getD_append _ _ _ _ h2]
      rw [this]
      exact ih h
    · unfold blockOf
      rw [flattenRow_succ, List.getD_append_right _ _ _ _ (by omega),
        List.getD_append_right _ _ _ _ (by omega), List.getD_append_right _ _ _ _ (by omega)]
      have e0 : 3 * k - (flattenRow k row).length = 0 := by omega
      have e1 : 3 * k + 1 - (flattenRow k row).length = 1 := by omega
      have e2 : 3 * k + 2 - (flattenRow k row).length = 2 := by omega
      rw [e0, e1, e2]
      simp [List.getD]

lemma blockOf_flattenRow_ge {N k : ℕ} (row : ℕ → Vec3) (hk : N ≤ k) :
    blockOf (flattenRow N row) k = 0 := by
  have hlen := flattenRow_length N row
  unfold blockOf
  rw [List.getD_eq_default _ _ (by omega), List.getD_eq_default _ _ (by omega),
    List.getD_eq_default _ _ (by omega)]
  rfl

lemma vdot_self_nonneg (v : Vec3) : 0 ≤ vdot v v := by
  obtain ⟨x, y, z⟩ := v
  unfold vdot
  nlinarith [mul_self_nonneg x, mul_self_nonneg y, mul_self_nonneg z]

lemma vdot_self_pos {v : Vec3} (h : v ≠ 0) : 0 < vdot v v := by
  rcases lt_or_eq_of_le (vdot_self_nonneg v) with hlt | heq
  · exact hlt
  · exfalso
    apply h
    obtain ⟨x, y, z⟩ := v
    unfold vdot at heq
    have hx : x = 0 := by nlinarith [mul_self_nonneg x, mul_self_nonneg y, mul_self_nonneg z]
    have hy : y = 0 := by nlinarith [mul_self_nonneg x, mul_self_nonneg y, mul_self_nonneg z]
    have hz : z = 0 := by nlinarith [mul_self_nonneg x, mul_self_nonneg y, mul_self_nonneg z]
    rw [hx, hy, hz]
    rfl

lemma vnorm_pos {v : Vec3} (h : v ≠ 0) : 0 < vnorm v :=
  Real.sqrt_pos.mpr (vdot_self_pos h)

lemma vnorm_neg (v : Vec3) : vnorm (-v) = vnorm v := by
  obtain ⟨x, y, z⟩ := v
  unfold vnorm vdot
  norm_num

lemma vnorm_unit {v : Vec3} (h : v ≠ 0) : vnorm (vdiv v (vnorm v)) = 1 := by
  have hd := vdot_self_pos h
  have hL : 0 < vnorm v := vnorm_pos h
  have hsq : vnorm v ^ 2 = vdot v v := Real.sq_sqrt hd.le
  have hdot : vdot (vdiv v (vnorm v)) (vdiv v (vnorm v)) = vdot v v / vnorm v ^ 2 := by
    obtain ⟨x, y, z⟩ := v
    unfold vdot vdiv
    rw [div_mul_div_comm, div_mul_div_comm, div_mul_div_comm, div_add_div_same,
      div_add_div_same, pow_two]
  unfold vnorm at *
  rw [hdot, hsq, div_self hd.ne']
  exact Real.sqrt_one

lemma bondRowFun_shape (coords : ℕ → Vec3) (n m : ℕ) :
    bondRowFun coords (n, m) = fun k =>
      if k = n then -(vdiv (coords m - coords n) (vnorm (coords m - coords n)))
      else if k = m then vdiv (coords m - coords n) (vnorm (coords m - coords n)) else 0 := rfl

lemma angleRowFun_shape (coords : ℕ → Vec3) (m o n : ℕ) :
    ∃ f s : Vec3, angleRowFun coords (m, o, n) = fun k =>
      if k = n then s else if k = o then -f - s else if k = m then f else 0 :=
  ⟨_, _, rfl⟩

lemma dihedralRowFun_shape (coords : ℕ → Vec3) (m o p n : ℕ) :
    ∃ t1 t2 t3 : Vec3, dihedralRowFun coords m o p n = fun k =>
      if k = p then t2 - t3 else if k = o then -t1 + t3
      else if k = n then -t2 else if k = m then t1 else 0 :=
  ⟨_, _, _, rfl⟩

/-- C10: the row returned by the dihedral B-matrix row builder is
independent of the dihedral-angle value it computes — the builder with
the cosine clamping and the `arccos` removed returns an identical row for
every geometry and quadruple. -/
theorem C10_dihedral_row_independent_of_angle (N : ℕ) (coords : ℕ → Vec3) (m o p n : ℕ) :
    get_dihedral_B N coords m o p n = get_dihedral_B_noAngle N coords m o p n := rfl

/-- C6: for a geometry in which the two bond atoms have distinct
positions, the bond row for bond `(n, m)` is a length-`3N` row, zero
outside atoms `m` and `n`, whose block at `m` is the unit vector from `n`
to `m` and whose block at `n` is its negation — two unit vectors of
opposite sign. -/
theorem C6_bond_row (N : ℕ) (coords : ℕ → Vec3) (n m : ℕ) (hm : m < N) (hn : n < N)
    (hpos : coords m ≠ coords n) :
    blockOf (get_bond_B N coords (n, m)) m =
      vdiv (coords m - coords n) (vnorm (coords m - coords n)) ∧
    blockOf (get_bond_B N coords (n, m)) n =
      -(vdiv (coords m - coords n) (vnorm (coords m - coords n))) ∧
    (∀ k, k ≠ m → k ≠ n → blockOf (get_bond_B N coords (n, m)) k = 0) ∧
    vnorm (blockOf (get_bond_B N coords (n, m)) m) = 1 ∧
    vnorm (blockOf (get_bond_B N coords (n, m)) n) = 1 ∧
    (get_bond_B N coords (n, m)).length = 3 * N := by
  have hmn : m ≠ n := fun h => hpos (by rw [h])
  have hv : coords m - coords n ≠ 0 := sub_ne_zero_of_ne hpos
  have hblock_m : blockOf (get_bond_B N coords (n, m)) m =
      vdiv (coords m - coords n) (vnorm (coords m - coords n)) := by
    unfold get_bond_B
    rw [blockOf_flattenRow _ hm, bondRowFun_shape]
    simp [hmn]
  have hblock_n : blockOf (get_bond_B N coords (n, m)) n =
      -(vdiv (coords m - coords n) (vnorm (coords m - coords n))) := by
    unfold get_bond_B
    rw [blockOf_flattenRow _ hn, bondRowFun_shape]
    simp
  refine ⟨hblock_m, hblock_n, ?_, ?_, ?_, ?_⟩
  · intro k hkm hkn
    unfold get_bond_B
    rcases lt_or_le k N with hk | hk
    · rw [blockOf_flattenRow _ hk, bondRowFun_shape]
      simp [hkm, hkn]
    · exact blockOf_flattenRow_ge _ hk
  · rw [hblock_m]
    exact vnorm_unit hv
  · rw [hblock_n, vnorm_neg]
    exact vnorm_unit hv
  · exact flattenRow_length N _

/-- Witness for C6 at a concrete two-atom geometry with distinct
positions. -/
theorem C6_bond_row_witness :
    exCoords 1 ≠ exCoords 0 ∧
    (blockOf (get_bond_B 2 exCoords (0, 1)) 1 =
      vdiv (exCoords 1 - exCoords 0) (vnorm (exCoords 1 - exCoords 0)) ∧
    blockOf (get_bond_B 2 exCoords (0, 1)) 0 =
      -(vdiv (exCoords 1 - exCoords 0) (vnorm (exCoords 1 - exCoords 0))) ∧
    (∀ k, k ≠ 1 → k ≠ 0 → blockOf (get_bond_B 2 exCoords (0, 1)) k = 0) ∧
    vnorm (blockOf (get_bond_B 2 exCoords (0, 1)) 1) = 1 ∧
    vnorm (blockOf (get_bond_B 2 exCoords (0, 1)) 0) = 1 ∧
    (get_bond_B 2 exCoords (0, 1)).length = 3 * 2) := by
  have hne : exCoords 1 ≠ exCoords 0 := by
    intro h
    have h1 : (exCoords 1).1 = (exCoords 0).1 := congrArg Prod.fst h
    unfold exCoords at h1
    norm_num at h1
  exact ⟨hne, C6_bond_row 2 exCoords 0 1 (by decide) (by decide) hne⟩

/-- C2: for every angle row the three atom blocks (two terminal atoms and
the central atom) sum to the zero vector, and for every dihedral row the
four atom blocks sum to the zero vector, assuming the defining vectors
have nonzero norms and non-degenerate sines. -/
theorem C2_row_translational_invariance :
    (∀ (N : ℕ) (coords : ℕ → Vec3) (m o n : ℕ), m < N → o < N → n < N →
      m ≠ o → o ≠ n → m ≠ n →
      vnorm (coords m - coords o) ≠ 0 → vnorm (coords n - coords o) ≠ 0 →
      blockOf (get_angle_B N coords (m, o, n)) m + blockOf (get_angle_B N coords (m, o, n)) o +
        blockOf (get_angle_B N coords (m, o, n)) n = 0) ∧
    (∀ (N : ℕ) (coords : ℕ → Vec3) (m o p n : ℕ), m < N → o < N → p < N → n < N →
      m ≠ o → m ≠ p → m ≠ n → o ≠ p → o ≠ n → p ≠ n →
      vnorm (coords m - coords o) ≠ 0 → vnorm (coords n - coords p) ≠ 0 →
      vnorm (coords p - coords o) ≠ 0 →
      Real.sin (Real.arccos (vdot (vdiv (coords m - coords o) (vnorm (coords m - coords o)))
        (vdiv (coords p - coords o) (vnorm (coords p - coords o))))) ≠ 0 →
      Real.sin (Real.arccos (vdot (vdiv (coords p - coords o) (vnorm (coords p - coords o)))
        (vdiv (coords n - coords p) (vnorm (coords n - coords p))))) ≠ 0 →
      blockOf (get_dihedral_B N coords m o p n) m + blockOf (get_dihedral_B N coords m o p n) n +
        blockOf (get_dihedral_B N coords m o p n) o +
        blockOf (get_dihedral_B N coords m o p n) p = 0) := by
  constructor
  · intro N coords m o n hmN hoN hnN hmo hon hmn _ _
    obtain ⟨f, s, hshape⟩ := angleRowFun_shape coords m o n
    unfold get_angle_B
    rw [blockOf_flattenRow _ hmN, blockOf_flattenRow _ hoN, blockOf_flattenRow _ hnN, hshape]
    simp only [if_pos rfl, if_neg hmn, if_neg hmo, if_neg hon, if_neg (Ne.symm hon)]
    abel
  · intro N coords m o p n hmN hoN hpN hnN hmo hmp hmn hop hon hpn _ _ _ _ _
    obtain ⟨t1, t2, t3, hshape⟩ := dihedralRowFun_shape coords m o p n
    unfold get_dihedral_B
    rw [blockOf_flattenRow _ hmN, blockOf_flattenRow _ hnN, blockOf_flattenRow _ hoN,
      blockOf_flattenRow _ hpN, hshape]
    simp only [if_pos rfl, if_neg hmp, if_neg hmo, if_neg hmn, if_neg hpn, if_neg hon,
      if_neg hop, if_neg (Ne.symm hpn), if_neg (Ne.symm hon), if_neg (Ne.symm hop)]
    abel

/-- Witness for C2 at a concrete right-angle bend and a concrete
staircase dihedral. -/
theorem C2_row_translational_invariance_witness :
    (vnorm (exACoords 0 - exACoords 1) ≠ 0 ∧ vnorm (exACoords 2 - exACoords 1) ≠ 0 ∧
      blockOf (get_angle_B 3 exACoords (0, 1, 2)) 0 +
        blockOf (get_angle_B 3 exACoords (0, 1, 2)) 1 +
        blockOf (get_angle_B 3 exACoords (0, 1, 2)) 2 = 0) ∧
    (vnorm (exDCoords 0 - exDCoords 1) ≠ 0 ∧ vnorm (exDCoords 3 - exDCoords 2) ≠ 0 ∧
      vnorm (exDCoords 2 - exDCoords 1) ≠ 0 ∧
      Real.sin (Real.arccos
        (vdot (vdiv (exDCoords 0 - exDCoords 1) (vnorm (exDCoords 0 - exDCoords 1)))
          (vdiv (exDCoords 2 - exDCoords 1) (vnorm (exDCoords 2 - exDCoords 1))))) ≠ 0 ∧
      Real.sin (Real.arccos
        (vdot (vdiv (exDCoords 2 - exDCoords 1) (vnorm (exDCoords 2 - exDCoords 1)))
          (vdiv (exDCoords 3 - exDCoords 2) (vnorm (exDCoords 3 - exDCoords 2))))) ≠ 0 ∧
      blockOf (get_dihedral_B 4 exDCoords 0 1 2 3) 0 +
        blockOf (get_dihedral_B 4 exDCoords 0 1 2 3) 3 +
        blockOf (get_dihedral_B 4 exDCoords 0 1 2 3) 1 +
        blockOf (get_dihedral_B 4 exDCoords 0 1 2 3) 2 = 0) := by
  have hv100 : vnorm ((1:ℝ), (0:ℝ), (0:ℝ)) = 1 := by
    norm_num [vnorm, vdot, Real.sqrt_one]
  have hv010 : vnorm ((0:ℝ), (1:ℝ), (0:ℝ)) = 1 := by
    norm_num [vnorm, vdot, Real.sqrt_one]
  have hv001 : vnorm ((0:ℝ), (0:ℝ), (1:ℝ)) = 1 := by
    norm_num [vnorm, vdot, Real.sqrt_one]
  have hA01 : exACoords 0 - exACoords 1 = ((1:ℝ), (0:ℝ), (0:ℝ)) := by
    simp only [exACoords, Prod.ext_iff, Prod.fst_sub, Prod.snd_sub] <;> norm_num
  have hA21 : exACoords 2 - exACoords 1 = ((0:ℝ), (1:ℝ), (0:ℝ)) := by
    simp only [exACoords, Prod.ext_iff, Prod.fst_sub, Prod.snd_sub] <;> norm_num
  have hD01 : exDCoords 0 - exDCoords 1 = ((1:ℝ), (0:ℝ), (0:ℝ)) := by
    simp only [exDCoords, Prod.ext_iff, Prod.fst_sub, Prod.snd_sub] <;> norm_num
  have hD32 : exDCoords 3 - exDCoords 2 = ((0:ℝ), (1:ℝ), (0:ℝ)) := by
    simp only [exDCoords, Prod.ext_iff, Prod.fst_sub, Prod.snd_sub] <;> norm_num
  have hD21 : exDCoords 2 - exDCoords 1 = ((0:ℝ), (0:ℝ), (1:ℝ)) := by
    simp only [exDCoords, Prod.ext_iff, Prod.fst_sub, Prod.snd_sub] <;> norm_num
  have hnA01 : vnorm (exACoords 0 - exACoords 1) ≠ 0 := by
    rw [hA01, hv100]; exact one_ne_zero
  have hnA21 : vnorm (exACoords 2 - exACoords 1) ≠ 0 := by
    rw [hA21, hv010]; exact one_ne_zero
  have hnD01 : vnorm (exDCoords 0 - exDCoords 1) ≠ 0 := by
    rw [hD01, hv100]; exact one_ne_zero
  have hnD32 : vnorm (exDCoords 3 - exDCoords 2) ≠ 0 := by
    rw [hD32, hv010]; exact one_ne_zero
  have hnD21 : vnorm (exDCoords 2 - exDCoords 1) ≠ 0 := by
    rw [hD21, hv001]; exact one_ne_zero
  have hsin1 : Real.sin (Real.arccos
      (vdot (vdiv (exDCoords 0 - exDCoords 1) (vnorm (exDCoords 0 - exDCoords 1)))
        (vdiv (exDCoords 2 - exDCoords 1) (vnorm (exDCoords 2 - exDCoords 1))))) ≠ 0 := by
    rw [hD01, hD21, hv100, hv001]
    norm_num [vdiv, vdot, Real.arccos_zero, Real.sin_pi_div_two]
  have hsin2 : Real.sin (Real.arccos
      (vdot (vdiv (exDCoords 2 - exDCoords 1) (vnorm (exDCoords 2 - exDCoords 1)))
        (vdiv (exDCoords 3 - exDCoords 2) (vnorm (exDCoords 3 - exDCoords 2))))) ≠ 0 := by
    rw [hD21, hD32, hv001, hv010]
    norm_num [vdiv, vdot, Real.arccos_zero, Real.sin_pi_div_two]
  exact ⟨⟨hnA01, hnA21,
      C2_row_translational_invariance.1 3 exACoords 0 1 2 (by decide) (by decide) (by decide)
        (by decide) (by decide) (by decide) hnA01 hnA21⟩,
    ⟨hnD01, hnD32, hnD21, hsin1, hsin2,
      C2_row_translational_invariance.2 4 exDCoords 0 1 2 3 (by decide) (by decide) (by decide)
        (by decide) (by decide) (by decide) (by decide) (by decide) (by decide) (by decide)
        hnD01 hnD32 hnD21 hsin1 hsin2⟩⟩

lemma appendNew_inv (acc : List (List ℕ) × List (Finset ℕ)) (d : List ℕ)
    (h1 : acc.2 = acc.1.map List.toFinset) (h2 : acc.2.Nodup) :
    (if d.toFinset ∈ acc.2 then acc else (acc.1 ++ [d], acc.2 ++ [d.toFinset])).2 =
      (if d.toFinset ∈ acc.2 then acc
        else (acc.1 ++ [d], acc.2 ++ [d.toFinset])).1.map List.toFinset ∧
    (if d.toFinset ∈ acc.2 then acc else (acc.1 ++ [d], acc.2 ++ [d.toFinset])).2.Nodup := by
  by_cases hmem : d.toFinset ∈ acc.2
  · rw [if_pos hmem]
    exact ⟨h1, h2⟩
  · rw [if_neg hmem]
    refine ⟨?_, ?_⟩
    · show acc.2 ++ [d.toFinset] = (acc.1 ++ [d]).map List.toFinset
      rw [List.map_append, h1]
      rfl
    · show (acc.2 ++ [d.toFinset]).Nodup
      rw [List.nodup_append]
      refine ⟨h2, List.nodup_singleton _, ?_⟩
      intro a ha hb
      rw [List.mem_singleton] at hb
      subst hb
      exact hmem ha

lemma dihedStep_inv (acc : List (List ℕ) × List (Finset ℕ)) (pr : (ℕ × ℕ) × (ℕ × ℕ × ℕ))
    (h1 : acc.2 = acc.1.map List.toFinset) (h2 : acc.2.Nodup) :
    (dihedStep acc pr).2 = (dihedStep acc pr).1.map List.toFinset ∧ (dihedStep acc pr).2.Nodup := by
  simp only [dihedStep]
  split
  · split
    · exact appendNew_inv acc _ h1 h2
    · exact ⟨h1, h2⟩
  · exact ⟨h1, h2⟩

lemma dihedFold_inv (l : List ((ℕ × ℕ) × (ℕ × ℕ × ℕ))) :
    ∀ acc : List (List ℕ) × List (Finset ℕ),
      acc.2 = acc.1.map List.toFinset → acc.2.Nodup →
      (l.foldl dihedStep acc).2 = (l.foldl dihedStep acc).1.map List.toFinset ∧
        (l.foldl dihedStep acc).2.Nodup := by
  induction l with
  | nil => exact fun acc h1 h2 => ⟨h1, h2⟩
  | cons pr rest ih =>
    intro acc h1 h2
    obtain ⟨h1', h2'⟩ := dihedStep_inv acc pr h1 h2
    exact ih (dihedStep acc pr) h1' h2'

/-- C5: no two quadruples produced by the dihedral index generator have
the same underlying set of four atom indices — a candidate whose atom set
equals that of a previously accepted dihedral is skipped. -/
theorem C5_dihedral_atom_sets_nodup (bond_inds : List (ℕ × ℕ)) (bend_inds : List (ℕ × ℕ × ℕ)) :
    ((get_dihedral_indices bond_inds bend_inds).map List.toFinset).Nodup := by
  unfold get_dihedral_indices
  obtain ⟨h1, h2⟩ := dihedFold_inv (listProd bond_inds bend_inds) ([], []) rfl List.nodup_nil
  rw [← h1]
  exact h2

lemma fragLoop_step_true {i j idx : ℕ} {frags : List (Finset ℕ)} (h : idx < frags.length)
    (hc : ((({i, j} : Finset ℕ)) ∩ frags.get ⟨idx, h⟩).Nonempty) :
    fragLoop i j idx frags =
      fragLoop i j (idx + 1) (frags.set idx (frags.get ⟨idx, h⟩ ∪ {i, j})) := by
  rw [fragLoop, dif_pos h, dif_pos hc]

lemma fragLoop_step_false {i j idx : ℕ} {frags : List (Finset ℕ)} (h : idx < frags.length)
    (hc : ¬ ((({i, j} : Finset ℕ)) ∩ frags.get ⟨idx, h⟩).Nonempty) :
    fragLoop i j idx frags = fragLoop i j (idx + 1) (frags ++ [({i, j} : Finset ℕ)]) := by
  rw [fragLoop, dif_pos h, dif_neg hc]

lemma fragLoop_stop {i j idx : ℕ} {frags : List (Finset ℕ)} (h : ¬ idx < frags.length) :
    fragLoop i j idx frags = frags := by
  rw [fragLoop, dif_neg h]

lemma mem_set_superset {l : List (Finset ℕ)} {g : Finset ℕ} (hg : g ∈ l) (idx : ℕ)
    (b : Finset ℕ) (h : idx < l.length) :
    ∃ g' ∈ l.set idx (l.get ⟨idx, h⟩ ∪ b), g ⊆ g' := by
  obtain ⟨k, hkl, rfl⟩ := List.mem_iff_getElem.mp hg
  by_cases hk : k = idx
  · subst hk
    refine ⟨l[k] ∪ b, ?_, Finset.subset_union_left⟩
    exact List.mem_iff_getElem.mpr ⟨k, by simp [hkl], by
      rw [List.getElem_set_self]
      simp [List.get_eq_getElem]⟩
  · refine ⟨l[k], ?_, subset_refl _⟩
    exact List.mem_iff_getElem.mpr ⟨k, by simp [hkl], by
      rw [List.getElem_set_ne (fun he => hk he.symm)]⟩

lemma fragLoop_mono (i j idx : ℕ) (frags : List (Finset ℕ)) :
    ∀ g ∈ frags, ∃ f ∈ fragLoop i j idx frags, g ⊆ f := by
  induction idx, frags using fragLoop.induct (i := i) (j := j) with
  | case1 idx frags h hc ih =>
    intro g hg
    rw [fragLoop, dif_pos h, dif_pos hc]
    obtain ⟨g', hg', hsub⟩ := mem_set_superset hg idx ({i, j} : Finset ℕ) h
    obtain ⟨f, hf, hsub'⟩ := ih g' hg'
    exact ⟨f, hf, hsub.trans hsub'⟩
  | case2 idx frags h hc ih =>
    intro g hg
    rw [fragLoop, dif_pos h, dif_neg hc]
    obtain ⟨f, hf, hsub⟩ := ih g (List.mem_append_left _ hg)
    exact ⟨f, hf, hsub⟩
  | case3 idx frags h =>
    intro g hg
    rw [fragLoop, dif_neg h]
    exact ⟨g, hg, subset_refl _⟩

lemma fragLoop_bond_mem (i j idx : ℕ) (frags : List (Finset ℕ)) (hlt : idx < frags.length) :
    ∃ f ∈ fragLoop i j idx frags, i ∈ f ∧ j ∈ f := by
  induction idx, frags using fragLoop.induct (i := i) (j := j) with
  | case1 idx frags h hc ih =>
    rw [fragLoop, dif_pos h, dif_pos hc]
    have hmem : frags.get ⟨idx, h⟩ ∪ ({i, j} : Finset ℕ) ∈
        frags.set idx (frags.get ⟨idx, h⟩ ∪ {i, j}) :=
      List.mem_iff_getElem.mpr ⟨idx, by simp [h], by rw [List.getElem_set_self]⟩
    obtain ⟨f, hf, hsub⟩ := fragLoop_mono i j (idx + 1) _ _ hmem
    refine ⟨f, hf, hsub ?_, hsub ?_⟩
    · exact Finset.mem_union_right _ (by simp)
    · exact Finset.mem_union_right _ (by simp)
  | case2 idx frags h hc ih =>
    rw [fragLoop, dif_pos h, dif_neg hc]
    exact ih (by simp; omega)
  | case3 idx frags h =>
    exact absurd hlt h

lemma fragLoop_length_le (i j idx : ℕ) (frags : List (Finset ℕ)) :
    frags.length ≤ (fragLoop i j idx frags).length := by
  induction idx, frags using fragLoop.induct (i := i) (j := j) with
  | case1 idx frags h hc ih =>
    rw [fragLoop, dif_pos h, dif_pos hc]
    simpa using ih
  | case2 idx frags h hc ih =>
    rw [fragLoop, dif_pos h, dif_neg hc]
    refine le_trans ?_ ih
    simp
  | case3 idx frags h =>
    rw [fragLoop, dif_neg h]

lemma fragLoop_atoms (i j idx : ℕ) (frags : List (Finset ℕ)) :
    ∀ f ∈ fragLoop i j idx frags, ∀ x ∈ f,
      (∃ g ∈ frags, x ∈ g) ∨ x = i ∨ x = j := by
  induction idx, frags using fragLoop.induct (i := i) (j := j) with
  | case1 idx frags h hc ih =>
    intro f hf x hx
    rw [fragLoop, dif_pos h, dif_pos hc] at hf
    rcases ih f hf x hx with hg | hij
    · obtain ⟨g, hg, hxg⟩ := hg
      rcases List.mem_or_eq_of_mem_set hg with hg' | rfl
      · exact Or.inl ⟨g, hg', hxg⟩
      · rcases Finset.mem_union.mp hxg with hxf | hxij
        · exact Or.inl ⟨frags.get ⟨idx, h⟩, List.get_mem _ _ _, hxf⟩
        · rcases Finset.mem_insert.mp hxij with h1 | h2
          · exact Or.inr (Or.inl h1)
          · exact Or.inr (Or.inr (Finset.mem_singleton.mp h2))
    · exact Or.inr hij
  | case2 idx frags h hc ih =>
    intro f hf x hx
    rw [fragLoop, dif_pos h, dif_neg hc] at hf
    rcases ih f hf x hx with hg | hij
    · obtain ⟨g, hg, hxg⟩ := hg
      rcases List.mem_append.mp hg with hg' | hg'
      · exact Or.inl ⟨g, hg', hxg⟩
      · rw [List.mem_singleton] at hg'
        subst hg'
        rcases Finset.mem_insert.mp hxg with h1 | h2
        · exact Or.inr (Or.inl h1)
        · exact Or.inr (Or.inr (Finset.mem_singleton.mp h2))
    · exact Or.inr hij
  | case3 idx frags h =>
    intro f hf x hx
    rw [fragLoop, dif_neg h] at hf
    exact Or.inl ⟨f, hf, hx⟩

lemma fragFold_spec (l : List (ℕ × ℕ)) :
    ∀ frags : List (Finset ℕ), frags ≠ [] →
      (l.foldl (fun fr p => fragLoop p.1 p.2 0 fr) frags) ≠ [] ∧
      (∀ g ∈ frags, ∃ f ∈ l.foldl (fun fr p => fragLoop p.1 p.2 0 fr) frags, g ⊆ f) ∧
      (∀ p ∈ l, ∃ f ∈ l.foldl (fun fr p => fragLoop p.1 p.2 0 fr) frags, p.1 ∈ f ∧ p.2 ∈ f) ∧
      (∀ f ∈ l.foldl (fun fr p => fragLoop p.1 p.2 0 fr) frags, ∀ x ∈ f,
        (∃ g ∈ frags, x ∈ g) ∨ (∃ p ∈ l, x = p.1 ∨ x = p.2)) := by
  induction l with
  | nil =>
    intro frags hne
    refine ⟨hne, fun g hg => ⟨g, hg, subset_refl _⟩, by simp, ?_⟩
    intro f hf x hx
    exact Or.inl ⟨f, hf, hx⟩
  | cons p rest ih =>
    intro frags hne
    have hlen : 0 < frags.length := List.length_pos.mpr hne
    have hne' : fragLoop p.1 p.2 0 frags ≠ [] := by
      intro hnil
      have hlen2 := fragLoop_length_le p.1 p.2 0 frags
      rw [hnil, List.length_nil] at hlen2
      omega
    obtain ⟨ihne, ihmono, ihbonds, ihatoms⟩ := ih (fragLoop p.1 p.2 0 frags) hne'
    refine ⟨ihne, ?_, ?_, ?_⟩
    · intro g hg
      obtain ⟨g', hg', hsub⟩ := fragLoop_mono p.1 p.2 0 frags g hg
      obtain ⟨f, hf, hsub'⟩ := ihmono g' hg'
      exact ⟨f, hf, hsub.trans hsub'⟩
    · intro q hq
      rcases List.mem_cons.mp hq with rfl | hq'
      · obtain ⟨g, hg, hi, hj⟩ := fragLoop_bond_mem q.1 q.2 0 frags hlen
        obtain ⟨f, hf, hsub⟩ := ihmono g hg
        exact ⟨f, hf, hsub hi, hsub hj⟩
      · exact ihbonds q hq'
    · intro f hf x hx
      rcases ihatoms f hf x hx with hg | hrest
      · obtain ⟨g, hg, hxg⟩ := hg
        rcases fragLoop_atoms p.1 p.2 0 frags g hg x hxg with hg' | hij
        · obtain ⟨g', hg', hxg'⟩ := hg'
          exact Or.inl ⟨g', hg', hxg'⟩
        · exact Or.inr ⟨p, List.mem_cons_self _ _, hij⟩
      · obtain ⟨q, hq, hxq⟩ := hrest
        exact Or.inr ⟨q, List.mem_cons_of_mem _ hq, hxq⟩

lemma make_fragments_spec {bonds : List (ℕ × ℕ)} {frags : List (Finset ℕ)}
    (h : make_fragments bonds = .ok frags) :
    (∀ p ∈ bonds, ∃ f ∈ frags, p.1 ∈ f ∧ p.2 ∈ f) ∧
    (∀ f ∈ frags, ∀ x ∈ f, ∃ p ∈ bonds, x = p.1 ∨ x = p.2) := by
  match bonds, h with
  | b :: rest, h =>
    have hfr : frags = rest.foldl (fun fr p => fragLoop p.1 p.2 0 fr) [({b.1, b.2} : Finset ℕ)] := by
      have := h
      unfold make_fragments at this
      exact (Except.ok.injEq _ _).mp this.symm
    obtain ⟨_, hmono, hbonds, hatoms⟩ :=
      fragFold_spec rest [({b.1, b.2} : Finset ℕ)] (by simp)
    subst hfr
    constructor
    · intro p hp
      rcases List.mem_cons.mp hp with rfl | hp'
      · obtain ⟨f, hf, hsub⟩ := hmono ({p.1, p.2} : Finset ℕ) (by simp)
        exact ⟨f, hf, hsub (by simp), hsub (by simp)⟩
      · exact hbonds p hp'
    · intro f hf x hx
      rcases hatoms f hf x hx with hg | hrest
      · obtain ⟨g, hg, hxg⟩ := hg
        rw [List.mem_singleton] at hg
        subst hg
        rcases Finset.mem_insert.mp hxg with h1 | h2
        · exact ⟨b, List.mem_cons_self _ _, Or.inl h1⟩
        · exact ⟨b, List.mem_cons_self _ _, Or.inr (Finset.mem_singleton.mp h2)⟩
      · obtain ⟨q, hq, hxq⟩ := hrest
        exact ⟨q, List.mem_cons_of_mem _ hq, hxq⟩

/-- C3 (amended): after the fragment analyzer processes any bond set, every
bond's two atoms lie in a common fragment; the fragments need *not* be
pairwise disjoint (see `C3_fragment_disjointness_counterexample`). -/
theorem C3_bond_atoms_in_same_fragment (bonds : List (ℕ × ℕ)) (frags : List (Finset ℕ))
    (h : make_fragments bonds = .ok frags) :
    ∀ p ∈ bonds, ∃ f ∈ frags, p.1 ∈ f ∧ p.2 ∈ f :=
  (make_fragments_spec h).1

/-- Counterexample for C3 as stated: on the bond set
`[(0,1), (2,3), (1,2)]` the analyzer unions the last bond into *both*
existing fragments, so the resulting fragments `{0,1,2}` and `{1,2,3}`
are not pairwise disjoint. -/
theorem C3_fragment_disjointness_counterexample :
    make_fragments [(0, 1), (2, 3), (1, 2)] =
      .ok [({0, 1, 2} : Finset ℕ), ({1, 2, 3} : Finset ℕ)] ∧
    ¬ Disjoint ({0, 1, 2} : Finset ℕ) ({1, 2, 3} : Finset ℕ) := by
  constructor
  · have e2 : fragLoop 2 3 0 [({0, 1} : Finset ℕ)] =
        [({0, 1} : Finset ℕ), ({2, 3} : Finset ℕ)] := by
      rw [fragLoop_step_false (by decide) (by decide),
        fragLoop_step_true (by decide) (by decide), fragLoop_stop (by decide)]
      decide
    have e3 : fragLoop 1 2 0 [({0, 1} : Finset ℕ), ({2, 3} : Finset ℕ)] =
        [({0, 1, 2} : Finset ℕ), ({1, 2, 3} : Finset ℕ)] := by
      rw [fragLoop_step_true (by decide) (by decide),
        fragLoop_step_true (by decide) (by decide), fragLoop_stop (by decide)]
      decide
    calc make_fragments [(0, 1), (2, 3), (1, 2)]
        = .ok (fragLoop 1 2 0 (fragLoop 2 3 0 [({0, 1} : Finset ℕ)])) := rfl
      _ = .ok [({0, 1, 2} : Finset ℕ), ({1, 2, 3} : Finset ℕ)] := by rw [e2, e3]
  · decide

/-- Witness for C3 (amended) on a concrete two-bond chain. -/
theorem C3_bond_atoms_in_same_fragment_witness :
    make_fragments [(0, 1), (1, 2)] = .ok [({0, 1, 2} : Finset ℕ)] ∧
    (∀ p ∈ [((0 : ℕ), (1 : ℕ)), (1, 2)], ∃ f ∈ [({0, 1, 2} : Finset ℕ)],
      p.1 ∈ f ∧ p.2 ∈ f) := by
  have h : make_fragments [(0, 1), (1, 2)] = .ok [({0, 1, 2} : Finset ℕ)] := by
    have e2 : fragLoop 1 2 0 [({0, 1} : Finset ℕ)] = [({0, 1, 2} : Finset ℕ)] := by
      rw [fragLoop_step_true (by decide) (by decide), fragLoop_stop (by decide)]
      decide
    calc make_fragments [(0, 1), (1, 2)]
        = .ok (fragLoop 1 2 0 [({0, 1} : Finset ℕ)]) := rfl
      _ = .ok [({0, 1, 2} : Finset ℕ)] := by rw [e2]
  exact ⟨h, C3_bond_atoms_in_same_fragment _ _ h⟩

lemma qdistSq_nonneg (a b : QVec3) : 0 ≤ qdistSq a b := by
  unfold qdistSq
  positivity

lemma bondFlag_iff_sqrt {dsq s : ℚ} (hd : 0 ≤ dsq) :
    bondFlag dsq s = true ↔ Real.sqrt (dsq : ℝ) ≤ (s : ℝ) := by
  unfold bondFlag
  rw [decide_eq_true_iff]
  constructor
  · rintro ⟨hs, hle⟩
    have hs' : (0 : ℝ) ≤ (s : ℝ) := by exact_mod_cast hs
    have hle' : (dsq : ℝ) ≤ (s : ℝ) ^ 2 := by exact_mod_cast hle
    calc Real.sqrt (dsq : ℝ) ≤ Real.sqrt ((s : ℝ) ^ 2) := Real.sqrt_le_sqrt hle'
      _ = (s : ℝ) := Real.sqrt_sq hs'
  · intro h
    have hs' : (0 : ℝ) ≤ (s : ℝ) := le_trans (Real.sqrt_nonneg _) h
    have hd' : (0 : ℝ) ≤ (dsq : ℝ) := by exact_mod_cast hd
    have h2 : (dsq : ℝ) ≤ (s : ℝ) ^ 2 := by
      have hpow := pow_le_pow_left (Real.sqrt_nonneg ((dsq : ℚ) : ℝ)) h 2
      rwa [Real.sq_sqrt hd'] at hpow
    exact ⟨by exact_mod_cast hs', by exact_mod_cast h2⟩

lemma selectBonds_covRad_mem {CR : String → Option ℚ} {atoms : List String} {factor : ℚ}
    (dfun : ℕ × ℕ → ℚ) :
    ∀ (ps : List (ℕ × ℕ)) (sums : List ℚ), covRadSums CR atoms factor ps = .ok sums →
    ∀ x : ℕ × ℕ,
      (x ∈ selectBonds ps (ps.map dfun) sums ↔
        x ∈ ps ∧ ∃ a1 a2 r1 r2, atoms.get? x.1 = some a1 ∧ atoms.get? x.2 = some a2 ∧
          CR (strLower a1) = some r1 ∧ CR (strLower a2) = some r2 ∧
          bondFlag (dfun x) (factor * (r1 + r2)) = true) := by
  intro ps
  induction ps with
  | nil =>
    intro sums hok x
    simp only [covRadSums] at hok
    obtain rfl : ([] : List ℚ) = sums := (Except.ok.injEq _ _).mp hok
    simp [selectBonds]
  | cons p rest ih =>
    intro sums hok x
    simp only [covRadSums] at hok
    cases h1 : atoms.get? p.1 with
    | none => rw [h1] at hok; cases hok
    | some a1 =>
    rw [h1] at hok
    dsimp only at hok
    cases h2 : atoms.get? p.2 with
    | none => rw [h2] at hok; cases hok
    | some a2 =>
    rw [h2] at hok
    dsimp only at hok
    cases h3 : CR (strLower a1) with
    | none => rw [h3] at hok; cases hok
    | some r1 =>
    rw [h3] at hok
    dsimp only at hok
    cases h4 : CR (strLower a2) with
    | none => rw [h4] at hok; cases hok
    | some r2 =>
    rw [h4] at hok
    dsimp only at hok
    cases hrec : covRadSums CR atoms factor rest with
    | error e => rw [hrec] at hok; cases hok
    | ok sums' =>
    rw [hrec] at hok
    dsimp only at hok
    obtain rfl : factor * (r1 + r2) :: sums' = sums := (Except.ok.injEq _ _).mp hok
    rw [List.map_cons]
    by_cases hx : x = p
    · subst hx
      by_cases hflag : bondFlag (dfun x) (factor * (r1 + r2)) = true
      · simp only [selectBonds, hflag, if_true]
        constructor
        · intro _
          exact ⟨List.mem_cons_self _ _, a1, a2, r1, r2, h1, h2, h3, h4, hflag⟩
        · intro _
          exact List.mem_cons_self _ _
      · simp only [selectBonds, hflag, if_false, Bool.false_eq_true]
        constructor
        · intro hmem
          obtain ⟨_, b1, b2, q1, q2, g1, g2, g3, g4, gflag⟩ := (ih sums' hrec x).mp hmem
          rw [h1] at g1
          rw [h2] at g2
          obtain rfl : a1 = b1 := Option.some.inj g1
          obtain rfl : a2 = b2 := Option.some.inj g2
          rw [h3] at g3
          rw [h4] at g4
          obtain rfl : r1 = q1 := Option.some.inj g3
          obtain rfl : r2 = q2 := Option.some.inj g4
          exact absurd gflag hflag
        · rintro ⟨_, b1, b2, q1, q2, g1, g2, g3, g4, gflag⟩
          rw [h1] at g1
          rw [h2] at g2
          obtain rfl : a1 = b1 := Option.some.inj g1
          obtain rfl : a2 = b2 := Option.some.inj g2
          rw [h3] at g3
          rw [h4] at g4
          obtain rfl : r1 = q1 := Option.some.inj g3
          obtain rfl : r2 = q2 := Option.some.inj g4
          exact absurd gflag hflag
    · have hstep : x ∈ selectBonds (p :: rest) (dfun p :: rest.map dfun)
          (factor * (r1 + r2) :: sums') ↔
          x ∈ selectBonds rest (rest.map dfun) sums' := by
        by_cases hflag : bondFlag (dfun p) (factor * (r1 + r2)) = true
        · simp only [selectBonds, hflag, if_true, List.mem_cons]
          constructor
          · rintro (rfl | hmem)
            · exact absurd rfl hx
            · exact hmem
          · exact Or.inr
        · simp only [selectBonds, hflag, Bool.false_eq_true, if_false]
      rw [hstep, ih sums' hrec x]
      constructor
      · rintro ⟨hmem, rest'⟩
        exact ⟨List.mem_cons_of_mem _ hmem, rest'⟩
      · rintro ⟨hmem, rest'⟩
        rcases List.mem_cons.mp hmem with rfl | hmem'
        · exact absurd rfl hx
        · exact ⟨hmem', rest'⟩

lemma get_bond_indices_ok {CR : String → Option ℚ} {geom : Geom} {factor : ℚ}
    {bonds : List (ℕ × ℕ)} (h : get_bond_indices CR geom factor = .ok bonds) :
    ∃ sums, covRadSums CR geom.atoms factor (atomPairs geom.coords.length) = .ok sums ∧
      bonds = selectBonds (atomPairs geom.coords.length)
        ((atomPairs geom.coords.length).map
          (fun p => qdistSq (geom.coords.getD p.1 0) (geom.coords.getD p.2 0))) sums ∧
      (∃ frags, make_fragments bonds = .ok frags) := by
  simp only [get_bond_indices] at h
  cases hcv : covRadSums CR geom.atoms factor (atomPairs geom.coords.length) with
  | error e => rw [hcv] at h; cases h
  | ok sums =>
  rw [hcv] at h
  dsimp only at h
  cases hmf : make_fragments (selectBonds (atomPairs geom.coords.length)
      ((atomPairs geom.coords.length).map
        (fun p => qdistSq (geom.coords.getD p.1 0) (geom.coords.getD p.2 0))) sums) with
  | error e => rw [hmf] at h; cases h
  | ok frags =>
  rw [hmf] at h
  dsimp only at h
  obtain rfl : _ = bonds := (Except.ok.injEq _ _).mp h
  exact ⟨sums, rfl, rfl, frags, hmf⟩

/-- C1: bond detection classifies an ascending pair `(i, j)` as a bond
iff the Euclidean distance of the two atoms is at most
`factor * (radius_i + radius_j)`, the radii looked up by lower-cased
element symbol, and every returned pair is ascending. -/
theorem C1_bond_detection (CR : String → Option ℚ) (geom : Geom) (factor : ℚ)
    (bonds : List (ℕ × ℕ)) (h : get_bond_indices CR geom factor = .ok bonds) :
    (∀ p ∈ bonds, p.1 < p.2 ∧ p.2 < geom.coords.length) ∧
    (∀ i j : ℕ, i < j → j < geom.coords.length →
      ((i, j) ∈ bonds ↔ ∃ a1 a2 r1 r2, geom.atoms.get? i = some a1 ∧
        geom.atoms.get? j = some a2 ∧ CR (strLower a1) = some r1 ∧ CR (strLower a2) = some r2 ∧
        Real.sqrt ((qdistSq (geom.coords.getD i 0) (geom.coords.getD j 0) : ℚ) : ℝ) ≤
          (factor : ℝ) * ((r1 : ℝ) + (r2 : ℝ)))) := by
  obtain ⟨sums, hcv, rfl, -⟩ := get_bond_indices_ok h
  have hmem := selectBonds_covRad_mem
    (fun p => qdistSq (geom.coords.getD p.1 0) (geom.coords.getD p.2 0)) _ _ hcv
  constructor
  · intro p hp
    exact mem_atomPairs.mp ((hmem p).mp hp).1
  · intro i j hij hj
    rw [hmem (i, j)]
    have hpair : ((i, j) : ℕ × ℕ) ∈ atomPairs geom.coords.length :=
      mem_atomPairs.mpr ⟨hij, hj⟩
    constructor
    · rintro ⟨-, a1, a2, r1, r2, h1, h2, h3, h4, hflag⟩
      refine ⟨a1, a2, r1, r2, h1, h2, h3, h4, ?_⟩
      have := (bondFlag_iff_sqrt (qdistSq_nonneg _ _)).mp hflag
      push_cast at this
      exact this
    · rintro ⟨a1, a2, r1, r2, h1, h2, h3, h4, hsq⟩
      refine ⟨hpair, a1, a2, r1, r2, h1, h2, h3, h4, ?_⟩
      rw [bondFlag_iff_sqrt (qdistSq_nonneg _ _)]
      push_cast
      exact hsq

lemma geomW_bonds : get_bond_indices exCR geomW 1 = .ok [(0, 1), (0, 2)] := by
  have hO : strLower "O" = "o" := by decide
  have hH : strLower "H" = "h" := by decide
  have hh : ("h" : String) ≠ "o" := by decide
  norm_num [get_bond_indices, geomW, atomPairs, List.range_succ, covRadSums, hO, hH, hh, exCR,
    qdistSq, selectBonds, bondFlag, make_fragments]

/-- Witness for C1 on a concrete three-atom geometry: the detector
returns exactly the two O–H pairs, both ascending. -/
theorem C1_bond_detection_witness :
    get_bond_indices exCR geomW 1 = .ok [(0, 1), (0, 2)] ∧
    (∀ p ∈ [((0 : ℕ), (1 : ℕ)), (0, 2)], p.1 < p.2 ∧ p.2 < geomW.coords.length) :=
  ⟨geomW_bonds, (C1_bond_detection exCR geomW 1 _ geomW_bonds).1⟩

lemma pair_eq_iff {α : Type} [DecidableEq α] {x y a b : α} (hxy : x ≠ y) (hab : a ≠ b) :
    ({x, y} : Finset α) = {a, b} ↔ (x = a ∧ y = b) ∨ (x = b ∧ y = a) := by
  constructor
  · intro h
    have hx : x ∈ ({a, b} : Finset α) := h ▸ (by simp)
    have hy : y ∈ ({a, b} : Finset α) := h ▸ (by simp)
    simp only [Finset.mem_insert, Finset.mem_singleton] at hx hy
    rcases hx with rfl | rfl
    · rcases hy with rfl | rfl
      · exact absurd rfl hxy
      · exact Or.inl ⟨rfl, rfl⟩
    · rcases hy with rfl | rfl
      · exact Or.inr ⟨rfl, rfl⟩
      · exact absurd rfl hxy
  · rintro (⟨rfl, rfl⟩ | ⟨rfl, rfl⟩)
    · rfl
    · exact Finset.pair_comm _ _

lemma countP_eq_one_of_nodup {α : Type} [DecidableEq α] {xs : List α} (h : xs.Nodup)
    {b : α} (hb : b ∈ xs) :
    xs.countP (fun y => decide (y = b)) = 1 := by
  induction xs with
  | nil => cases hb
  | cons x xs ih =>
    rw [List.countP_cons]
    rcases List.mem_cons.mp hb with rfl | hb'
    · have hz : xs.countP (fun y => decide (y = b)) = 0 := by
        rw [List.countP_eq_zero]
        intro y hy
        simp only [decide_eq_true_eq]
        intro he
        exact (List.nodup_cons.mp h).1 (he ▸ hy)
      simp [hz]
    · have hxb : x ≠ b := fun he => (List.nodup_cons.mp h).1 (he ▸ hb')
      rw [ih (List.nodup_cons.mp h).2 hb']
      simp [hxb]

lemma listPairs_mem {α : Type} {l : List α} : ∀ p ∈ listPairs l, p.1 ∈ l ∧ p.2 ∈ l := by
  induction l with
  | nil => simp [listPairs]
  | cons x xs ih =>
    intro p hp
    simp only [listPairs, List.mem_append, List.mem_map] at hp
    rcases hp with ⟨y, hy, rfl⟩ | hp
    · exact ⟨List.mem_cons_self _ _, List.mem_cons_of_mem _ hy⟩
    · obtain ⟨h1, h2⟩ := ih p hp
      exact ⟨List.mem_cons_of_mem _ h1, List.mem_cons_of_mem _ h2⟩

lemma listPairs_ne {α : Type} {l : List α} (hnd : l.Nodup) : ∀ p ∈ listPairs l, p.1 ≠ p.2 := by
  induction l with
  | nil => simp [listPairs]
  | cons x xs ih =>
    intro p hp
    simp only [listPairs, List.mem_append, List.mem_map] at hp
    rcases hp with ⟨y, hy, rfl⟩ | hp
    · intro he
      dsimp only at he
      apply (List.nodup_cons.mp hnd).1
      rw [he]
      exact hy
    · exact ih (List.nodup_cons.mp hnd).2 p hp

lemma listPairs_countP {α : Type} [DecidableEq α] {l : List α} (hnd : l.Nodup)
    {a b : α} (hab : a ≠ b) (ha : a ∈ l) (hb : b ∈ l) :
    (listPairs l).countP (fun p => decide (({p.1, p.2} : Finset α) = {a, b})) = 1 := by
  induction l with
  | nil => cases ha
  | cons x xs ih =>
    obtain ⟨hx, hxs⟩ := List.nodup_cons.mp hnd
    rw [listPairs, List.countP_append, List.countP_map]
    rcases List.mem_cons.mp ha with rfl | ha'
    · have hb' : b ∈ xs := by
        rcases List.mem_cons.mp hb with rfl | h
        · exact absurd rfl hab
        · exact h
      have h1 : xs.countP
          ((fun p : α × α => decide (({p.1, p.2} : Finset α) = {a, b})) ∘ (fun y => (a, y))) = 1 := by
        rw [List.countP_congr ?_]
        · exact countP_eq_one_of_nodup hxs hb'
        · intro y hy
          have hya : a ≠ y := fun he => hx (he ▸ hy)
          simp only [Function.comp_apply, decide_eq_true_eq]
          rw [pair_eq_iff hya hab]
          constructor
          · rintro (⟨-, rfl⟩ | ⟨hba, -⟩)
            · rfl
            · exact absurd hba hab
          · rintro rfl
            exact Or.inl ⟨rfl, rfl⟩
      have h2 : (listPairs xs).countP
          (fun p => decide (({p.1, p.2} : Finset α) = {a, b})) = 0 := by
        rw [List.countP_eq_zero]
        intro p hp
        obtain ⟨hp1, hp2⟩ := listPairs_mem p hp
        simp only [decide_eq_true_eq]
        intro he
        have hmem : a ∈ ({p.1, p.2} : Finset α) := he ▸ (by simp)
        simp only [Finset.mem_insert, Finset.mem_singleton] at hmem
        rcases hmem with h | h
        · exact hx (h ▸ hp1)
        · exact hx (h ▸ hp2)
      rw [h1, h2]
    · rcases List.mem_cons.mp hb with rfl | hb'
      · have h1 : xs.countP
            ((fun p : α × α => decide (({p.1, p.2} : Finset α) = {a, b})) ∘ (fun y => (b, y))) = 1 := by
          rw [List.countP_congr ?_]
          · exact countP_eq_one_of_nodup hxs ha'
          · intro y hy
            have hyb : b ≠ y := fun he => hx (he ▸ hy)
            simp only [Function.comp_apply, decide_eq_true_eq]
            rw [pair_eq_iff hyb hab]
            constructor
            · rintro (⟨hba, -⟩ | ⟨-, rfl⟩)
              · exact absurd hba.symm hab
              · rfl
            · rintro rfl
              exact Or.inr ⟨rfl, rfl⟩
        have h2 : (listPairs xs).countP
            (fun p => decide (({p.1, p.2} : Finset α) = {a, b})) = 0 := by
          rw [List.countP_eq_zero]
          intro p hp
          obtain ⟨hp1, hp2⟩ := listPairs_mem p hp
          simp only [decide_eq_true_eq]
          intro he
          have hmem : b ∈ ({p.1, p.2} : Finset α) := he ▸ (by simp)
          simp only [Finset.mem_insert, Finset.mem_singleton] at hmem
          rcases hmem with h | h
          · exact hx (h ▸ hp1)
          · exact hx (h ▸ hp2)
        rw [h1, h2]
      · have h1 : xs.countP
            ((fun p : α × α => decide (({p.1, p.2} : Finset α) = {a, b})) ∘ (fun y => (x, y))) = 0 := by
          rw [List.countP_eq_zero]
          intro y hy
          simp only [Function.comp_apply, decide_eq_true_eq]
          intro he
          have hmem : x ∈ ({a, b} : Finset α) := he ▸ (by simp)
          simp only [Finset.mem_insert, Finset.mem_singleton] at hmem
          rcases hmem with h | h
          · exact hx (h ▸ ha')
          · exact hx (h ▸ hb')
        rw [h1, ih hxs ha' hb']

lemma sort_by_central_spec {s1 s2 : Finset ℕ} (h1 : s1.card = 2) (h2 : s2.card = 2)
    (hu : (s1 ∪ s2).card = 3) :
    ∃ t1 c t2, sort_by_central s1 s2 = some ((t1, c, t2), c) ∧
      s1 ∩ s2 = {c} ∧ (s1 ∪ s2) \ (s1 ∩ s2) = {t1, t2} ∧ t1 ≠ t2 ∧
      s1 ∪ s2 = {t1, c, t2} ∧ c ∉ ({t1, t2} : Finset ℕ) := by
  have hsum := Finset.card_inter_add_card_union s1 s2
  have hinter : (s1 ∩ s2).card = 1 := by omega
  have hsub : s1 ∩ s2 ⊆ s1 ∪ s2 := (Finset.inter_subset_left).trans Finset.subset_union_left
  have hsdiff : ((s1 ∪ s2) \ (s1 ∩ s2)).card = 2 := by
    rw [Finset.card_sdiff hsub]
    omega
  have hcond : (s1 ∩ s2).card = 1 ∧ ((s1 ∪ s2) \ (s1 ∩ s2)).card = 2 := ⟨hinter, hsdiff⟩
  obtain ⟨c0, hc0⟩ := Finset.card_eq_one.mp hinter
  obtain ⟨x, y, hxy, hset⟩ := Finset.card_eq_two.mp hsdiff
  have hmin_inter : (s1 ∩ s2).min' (Finset.card_pos.mp (by omega)) = c0 := by
    simp [hc0]
  set D := (s1 ∪ s2) \ (s1 ∩ s2) with hD
  have hne : D.Nonempty := Finset.card_pos.mp (by omega)
  have hlt : D.min' hne < D.max' hne := Finset.min'_lt_max'_of_card _ (by omega)
  have hmm : ({D.min' hne, D.max' hne} : Finset ℕ) = D := by
    apply Finset.eq_of_subset_of_card_le
    · intro z hz
      simp only [Finset.mem_insert, Finset.mem_singleton] at hz
      rcases hz with rfl | rfl
      · exact Finset.min'_mem _ _
      · exact Finset.max'_mem _ _
    · rw [Finset.card_pair hlt.ne]
      omega
  refine ⟨D.min' hne, c0, D.max' hne, ?_, hc0, hmm.symm, hlt.ne, ?_, ?_⟩
  · rw [sort_by_central]
    rw [dif_pos hcond]
    simp only [hmin_inter]
  · have hmemD : ∀ z, z ∈ D ↔ z = D.min' hne ∨ z = D.max' hne := by
      intro z
      conv_lhs => rw [← hmm]
      simp
    have hun : (s1 ∪ s2) = D ∪ (s1 ∩ s2) := by
      rw [hD, Finset.sdiff_union_of_subset hsub]
    rw [hun, hc0]
    ext z
    simp only [Finset.mem_union, Finset.mem_insert, Finset.mem_singleton, hmemD z]
    tauto
  · intro hc
    have : c0 ∈ D := hmm ▸ hc
    rw [hD, Finset.mem_sdiff] at this
    exact this.2 (hc0 ▸ Finset.mem_singleton_self c0)

lemma two_set_with_mem {s : Finset ℕ} (h : s.card = 2) {c : ℕ} (hc : c ∈ s) :
    ∃ w, w ≠ c ∧ s = {c, w} := by
  obtain ⟨u, v, huv, rfl⟩ := Finset.card_eq_two.mp h
  simp only [Finset.mem_insert, Finset.mem_singleton] at hc
  rcases hc with rfl | rfl
  · exact ⟨v, fun he => huv he.symm, rfl⟩
  · exact ⟨u, huv, Finset.pair_comm u c⟩

lemma derived_pair_eq {s1 s2 : Finset ℕ} {t1 c t2 : ℕ}
    (h1 : s1.card = 2) (h2 : s2.card = 2) (hne : s1 ≠ s2)
    (hinter : s1 ∩ s2 = {c}) (hsdiff : (s1 ∪ s2) \ (s1 ∩ s2) = {t1, t2}) (ht : t1 ≠ t2) :
    ({({t1, c} : Finset ℕ), ({c, t2} : Finset ℕ)} : Finset (Finset ℕ)) = {s1, s2} := by
  have hc1 : c ∈ s1 := Finset.inter_subset_left (hinter ▸ Finset.mem_singleton_self c)
  have hc2 : c ∈ s2 := Finset.inter_subset_right (hinter ▸ Finset.mem_singleton_self c)
  obtain ⟨w1, hw1c, hs1⟩ := two_set_with_mem h1 hc1
  obtain ⟨w2, hw2c, hs2⟩ := two_set_with_mem h2 hc2
  have hw12 : w1 ≠ w2 := by
    intro he
    apply hne
    rw [hs1, hs2, he]
  have hw1mem : w1 ∈ (s1 ∪ s2) \ (s1 ∩ s2) := by
    rw [Finset.mem_sdiff, hinter]
    constructor
    · exact Finset.mem_union_left _ (hs1 ▸ (by simp))
    · simp [hw1c]
  have hw2mem : w2 ∈ (s1 ∪ s2) \ (s1 ∩ s2) := by
    rw [Finset.mem_sdiff, hinter]
    constructor
    · exact Finset.mem_union_right _ (hs2 ▸ (by simp))
    · simp [hw2c]
  rw [hsdiff] at hw1mem hw2mem
  simp only [Finset.mem_insert, Finset.mem_singleton] at hw1mem hw2mem
  rcases hw1mem with h1' | h1'
  · rcases hw2mem with h2' | h2'
    · exact absurd (h1'.trans h2'.symm) hw12
    · rw [hs1, hs2, h1', h2', Finset.pair_comm t1 c]
  · rcases hw2mem with h2' | h2'
    · rw [hs1, hs2, h1', h2', Finset.pair_comm t1 c]
      exact Finset.pair_comm _ _
    · exact absurd (h1'.trans h2'.symm) hw12

lemma bendLoop_ok : ∀ ps : List (Finset ℕ × Finset ℕ),
    (∀ p ∈ ps, p.1.card = 2 ∧ p.2.card = 2 ∧ p.1 ≠ p.2) →
    ∃ out, bendLoop ps = .ok out ∧
      ∀ t ∈ out, ∃ s1 s2, (s1, s2) ∈ ps ∧ s1 ≠ s2 ∧ (s1 ∪ s2).card = 3 ∧
        s1 ∩ s2 = {t.2.1} ∧ ({t.1, t.2.1, t.2.2} : Finset ℕ) = s1 ∪ s2 ∧
        t.1 ≠ t.2.2 ∧ t.2.1 ∉ ({t.1, t.2.2} : Finset ℕ) := by
  intro ps
  induction ps with
  | nil =>
    intro _
    exact ⟨[], rfl, by simp⟩
  | cons p rest ih =>
    intro hc
    obtain ⟨hp1, hp2, hpne⟩ := hc p (List.mem_cons_self _ _)
    obtain ⟨out, hout, hprop⟩ := ih (fun q hq => hc q (List.mem_cons_of_mem _ hq))
    by_cases hcard : (p.1 ∪ p.2).card = 3
    · obtain ⟨t1, c, t2, hsort, hint, hsd, hnet, hun, hcnot⟩ :=
        sort_by_central_spec hp1 hp2 hcard
      refine ⟨(t1, c, t2) :: out, ?_, ?_⟩
      · have hq : bendLoop (p :: rest) = bendLoop ((p.1, p.2) :: rest) := by
          rw [Prod.mk.eta]
        rw [hq, bendLoop, if_pos hcard, hsort, hout]
      · intro t ht
        rcases List.mem_cons.mp ht with rfl | ht'
        · exact ⟨p.1, p.2, by rw [Prod.mk.eta]; exact List.mem_cons_self _ _, hpne, hcard,
            hint, hun.symm, hnet, hcnot⟩
        · obtain ⟨s1, s2, hmem, hrest⟩ := hprop t ht'
          exact ⟨s1, s2, List.mem_cons_of_mem _ hmem, hrest⟩
    · refine ⟨out, ?_, ?_⟩
      · have hq : bendLoop (p :: rest) = bendLoop ((p.1, p.2) :: rest) := by
          rw [Prod.mk.eta]
        rw [hq, bendLoop, if_neg hcard, hout]
      · intro t ht
        obtain ⟨s1, s2, hmem, hrest⟩ := hprop t ht
        exact ⟨s1, s2, List.mem_cons_of_mem _ hmem, hrest⟩

lemma bendLoop_count {s1 s2 : Finset ℕ} (hness : s1 ≠ s2) (h3 : (s1 ∪ s2).card = 3) :
    ∀ ps : List (Finset ℕ × Finset ℕ),
    (∀ p ∈ ps, p.1.card = 2 ∧ p.2.card = 2 ∧ p.1 ≠ p.2) →
    ∀ out, bendLoop ps = .ok out →
    out.countP (fun t => decide
      (({({t.1, t.2.1} : Finset ℕ), ({t.2.1, t.2.2} : Finset ℕ)} : Finset (Finset ℕ)) =
        {s1, s2})) =
    ps.countP (fun p => decide (({p.1, p.2} : Finset (Finset ℕ)) = {s1, s2})) := by
  intro ps
  induction ps with
  | nil =>
    intro _ out hok
    obtain rfl : ([] : List (ℕ × ℕ × ℕ)) = out := by
      simpa [bendLoop] using hok
    rfl
  | cons p rest ih =>
    intro hc out hok
    obtain ⟨hp1, hp2, hpne⟩ := hc p (List.mem_cons_self _ _)
    have hcrest := fun q hq => hc q (List.mem_cons_of_mem _ hq)
    have hq : bendLoop (p :: rest) = bendLoop ((p.1, p.2) :: rest) := by
      rw [Prod.mk.eta]
    rw [hq] at hok
    by_cases hcard : (p.1 ∪ p.2).card = 3
    · obtain ⟨t1, c, t2, hsort, hint, hsd, hnet, hun, hcnot⟩ :=
        sort_by_central_spec hp1 hp2 hcard
      rw [bendLoop, if_pos hcard, hsort] at hok
      cases hrec : bendLoop rest with
      | error e => rw [hrec] at hok; cases hok
      | ok out' =>
        rw [hrec] at hok
        obtain rfl : (t1, c, t2) :: out' = out := (Except.ok.injEq _ _).mp hok
        rw [List.countP_cons, List.countP_cons, ih hcrest out' hrec]
        have hd : ({({t1, c} : Finset ℕ), ({c, t2} : Finset ℕ)} : Finset (Finset ℕ)) =
            {p.1, p.2} := derived_pair_eq hp1 hp2 hpne hint hsd hnet
        simp only [hd]
    · rw [bendLoop, if_neg hcard] at hok
      rw [List.countP_cons, ih hcrest out hok]
      have hfalse : ¬ (({p.1, p.2} : Finset (Finset ℕ)) = {s1, s2}) := by
        intro he
        apply hcard
        rcases (pair_eq_iff hpne hness).mp he with ⟨e1, e2⟩ | ⟨e1, e2⟩
        · rw [e1, e2]
          exact h3
        · rw [e1, e2, Finset.union_comm]
          exact h3
      simp [hfalse]

lemma bondSets_card {bonds : List (ℕ × ℕ)} (hb : ∀ p ∈ bonds, p.1 ≠ p.2) :
    ∀ s ∈ bondSetsOf bonds, s.card = 2 := by
  intro s hs
  obtain ⟨q, hq, rfl⟩ := List.mem_map.mp (List.mem_dedup.mp hs)
  exact Finset.card_pair (hb q hq)

lemma bondSets_pairs_cards {bonds : List (ℕ × ℕ)} (hb : ∀ p ∈ bonds, p.1 ≠ p.2) :
    ∀ p ∈ listPairs (bondSetsOf bonds), p.1.card = 2 ∧ p.2.card = 2 ∧ p.1 ≠ p.2 := by
  intro p hp
  obtain ⟨h1, h2⟩ := listPairs_mem p hp
  exact ⟨bondSets_card hb _ h1, bondSets_card hb _ h2,
    listPairs_ne (List.nodup_dedup _) p hp⟩

/-- C4: the angle index generator produces exactly one triple per
unordered pair of distinct bond sets whose union has exactly three atoms
(the two bonds then share exactly one atom), with the shared atom in the
middle position and the two non-shared atoms outside; no triple arises
from a pair whose union has any other size. -/
theorem C4_bending_indices (bonds : List (ℕ × ℕ)) (hb : ∀ p ∈ bonds, p.1 ≠ p.2) :
    ∃ out, get_bending_indices bonds = .ok out ∧
      (∀ t ∈ out, ∃ s1 s2, s1 ∈ bondSetsOf bonds ∧ s2 ∈ bondSetsOf bonds ∧ s1 ≠ s2 ∧
        (s1 ∪ s2).card = 3 ∧ s1 ∩ s2 = {t.2.1} ∧
        ({t.1, t.2.1, t.2.2} : Finset ℕ) = s1 ∪ s2 ∧
        t.1 ≠ t.2.2 ∧ t.2.1 ∉ ({t.1, t.2.2} : Finset ℕ)) ∧
      (∀ s1 s2 : Finset ℕ, s1 ∈ bondSetsOf bonds → s2 ∈ bondSetsOf bonds → s1 ≠ s2 →
        (s1 ∪ s2).card = 3 →
        out.countP (fun t => decide
          (({({t.1, t.2.1} : Finset ℕ), ({t.2.1, t.2.2} : Finset ℕ)} : Finset (Finset ℕ)) =
            {s1, s2})) = 1) := by
  obtain ⟨out, hout, hprop⟩ := bendLoop_ok _ (bondSets_pairs_cards hb)
  refine ⟨out, hout, ?_, ?_⟩
  · intro t ht
    obtain ⟨s1, s2, hmem, hrest⟩ := hprop t ht
    obtain ⟨h1, h2⟩ := listPairs_mem _ hmem
    exact ⟨s1, s2, h1, h2, hrest⟩
  · intro s1 s2 h1 h2 hne h3
    rw [bendLoop_count hne h3 _ (bondSets_pairs_cards hb) out hout]
    exact listPairs_countP (List.nodup_dedup _) hne h1 h2

/-- Witness for C4 on the two-bond set of the bent three-atom example. -/
theorem C4_bending_indices_witness :
    (∀ p ∈ [((0 : ℕ), (1 : ℕ)), (0, 2)], p.1 ≠ p.2) ∧
    ∃ out, get_bending_indices [(0, 1), (0, 2)] = .ok out ∧
      (∀ t ∈ out, ∃ s1 s2, s1 ∈ bondSetsOf [(0, 1), (0, 2)] ∧
        s2 ∈ bondSetsOf [(0, 1), (0, 2)] ∧ s1 ≠ s2 ∧
        (s1 ∪ s2).card = 3 ∧ s1 ∩ s2 = {t.2.1} ∧
        ({t.1, t.2.1, t.2.2} : Finset ℕ) = s1 ∪ s2 ∧
        t.1 ≠ t.2.2 ∧ t.2.1 ∉ ({t.1, t.2.2} : Finset ℕ)) ∧
      (∀ s1 s2 : Finset ℕ, s1 ∈ bondSetsOf [(0, 1), (0, 2)] →
        s2 ∈ bondSetsOf [(0, 1), (0, 2)] → s1 ≠ s2 → (s1 ∪ s2).card = 3 →
        out.countP (fun t => decide
          (({({t.1, t.2.1} : Finset ℕ), ({t.2.1, t.2.2} : Finset ℕ)} : Finset (Finset ℕ)) =
            {s1, s2})) = 1) :=
  ⟨by decide, C4_bending_indices [(0, 1), (0, 2)] (by decide)⟩

lemma covRadSums_unknown {CR : String → Option ℚ} {atoms : List String} (factor : ℚ) :
    ∀ ps : List (ℕ × ℕ),
    (∀ p ∈ ps, p.1 < atoms.length ∧ p.2 < atoms.length) →
    (∃ p ∈ ps, (∃ a, atoms.get? p.1 = some a ∧ CR (strLower a) = none) ∨
      (∃ a, atoms.get? p.2 = some a ∧ CR (strLower a) = none)) →
    ∃ s, CR s = none ∧ covRadSums CR atoms factor ps = .error (.unknownElement s) := by
  intro ps
  induction ps with
  | nil =>
    rintro _ ⟨p, hp, -⟩
    cases hp
  | cons p rest ih =>
    intro hbound hex
    obtain ⟨h1len, h2len⟩ := hbound p (List.mem_cons_self _ _)
    obtain ⟨a1, ha1⟩ : ∃ a, atoms.get? p.1 = some a :=
      ⟨_, List.get?_eq_get h1len⟩
    obtain ⟨a2, ha2⟩ : ∃ a, atoms.get? p.2 = some a :=
      ⟨_, List.get?_eq_get h2len⟩
    simp only [covRadSums, ha1, ha2]
    cases h3 : CR (strLower a1) with
    | none => exact ⟨strLower a1, h3, rfl⟩
    | some r1 =>
    cases h4 : CR (strLower a2) with
    | none => exact ⟨strLower a2, h4, rfl⟩
    | some r2 =>
    have hex' : ∃ q ∈ rest, (∃ a, atoms.get? q.1 = some a ∧ CR (strLower a) = none) ∨
        (∃ a, atoms.get? q.2 = some a ∧ CR (strLower a) = none) := by
      obtain ⟨q, hq, hcase⟩ := hex
      rcases List.mem_cons.mp hq with rfl | hq'
      · exfalso
        rcases hcase with ⟨a, ha, hnone⟩ | ⟨a, ha, hnone⟩
        · rw [ha1] at ha
          obtain rfl : a1 = a := Option.some.inj ha
          rw [h3] at hnone
          cases hnone
        · rw [ha2] at ha
          obtain rfl : a2 = a := Option.some.inj ha
          rw [h4] at hnone
          cases hnone
      · exact ⟨q, hq', hcase⟩
    obtain ⟨s, hs, hrec⟩ := ih (fun q hq => hbound q (List.mem_cons_of_mem _ hq)) hex'
    refine ⟨s, hs, ?_⟩
    rw [hrec]

/-- C7 (amended): in a geometry with at least two atoms (one element
symbol per coordinate row), an element symbol missing from the
covalent-radius table makes bond detection fail with
`UnknownElementError`, and the same error aborts `get_B_mat` before any
row is built.  (With fewer than two atoms no radius is ever looked up and
the pipeline fails with `IndexError` instead, see
`C7_unknown_element_counterexample`.) -/
theorem C7_unknown_element (CR : String → Option ℚ) (geom : Geom) (factor : ℚ)
    (hlen : geom.atoms.length = geom.coords.length)
    (h2 : 2 ≤ geom.coords.length)
    (hunknown : ∃ a ∈ geom.atoms, CR (strLower a) = none) :
    ∃ s, CR s = none ∧ get_bond_indices CR geom factor = .error (.unknownElement s) ∧
      get_B_mat CR geom factor = .error (.unknownElement s) := by
  obtain ⟨a, ha, hnone⟩ := hunknown
  obtain ⟨k, hk, hget⟩ := List.mem_iff_getElem.mp ha
  have hkn : k < geom.coords.length := hlen ▸ hk
  have hsome : geom.atoms.get? k = some a := by
    rw [List.get?_eq_getElem?, List.getElem?_eq_getElem hk, hget]
  have hpair : ∃ p ∈ atomPairs geom.coords.length,
      (∃ b, geom.atoms.get? p.1 = some b ∧ CR (strLower b) = none) ∨
      (∃ b, geom.atoms.get? p.2 = some b ∧ CR (strLower b) = none) := by
    rcases Nat.eq_zero_or_pos k with rfl | hkpos
    · exact ⟨(0, 1), mem_atomPairs.mpr ⟨by omega, by omega⟩, Or.inl ⟨a, hsome, hnone⟩⟩
    · exact ⟨(0, k), mem_atomPairs.mpr ⟨hkpos, hkn⟩, Or.inr ⟨a, hsome, hnone⟩⟩
  have hbounds : ∀ p ∈ atomPairs geom.coords.length,
      p.1 < geom.atoms.length ∧ p.2 < geom.atoms.length := by
    intro p hp
    obtain ⟨h1, h2'⟩ := mem_atomPairs.mp hp
    omega
  obtain ⟨s, hs, herr⟩ := covRadSums_unknown factor _ hbounds hpair
  refine ⟨s, hs, ?_, ?_⟩
  · simp only [get_bond_indices, herr]
  · have hb : get_bond_indices CR geom factor = .error (.unknownElement s) := by
      simp only [get_bond_indices, herr]
    simp only [get_B_mat, hb]

/-- Counterexample for C7 as stated: with a single atom whose element is
unknown, no atom pair exists, so no radius is ever looked up — the
pipeline fails with `IndexError` (popping the first bond from the empty
bond list), not with `UnknownElementError`. -/
theorem C7_unknown_element_counterexample :
    exCR (strLower "X") = none ∧
    get_B_mat exCR geomX1 1 = .error .indexError ∧
    ¬ ∃ s, get_B_mat exCR geomX1 1 = .error (.unknownElement s) := by
  have hb : get_bond_indices exCR geomX1 1 = .error .indexError := by rfl
  have hm : get_B_mat exCR geomX1 1 = .error .indexError := by
    simp only [get_B_mat, hb]
  refine ⟨by decide, hm, ?_⟩
  rintro ⟨s, hs⟩
  rw [hm] at hs
  cases hs

/-- Witness for C7 (amended) on a two-atom geometry whose second atom has
an unknown element symbol. -/
theorem C7_unknown_element_witness :
    geomX2.atoms.length = geomX2.coords.length ∧ 2 ≤ geomX2.coords.length ∧
    (∃ a ∈ geomX2.atoms, exCR (strLower a) = none) ∧
    ∃ s, exCR s = none ∧ get_bond_indices exCR geomX2 1 = .error (.unknownElement s) ∧
      get_B_mat exCR geomX2 1 = .error (.unknownElement s) := by
  have h1 : geomX2.atoms.length = geomX2.coords.length := rfl
  have h2 : 2 ≤ geomX2.coords.length := by decide
  have h3 : ∃ a ∈ geomX2.atoms, exCR (strLower a) = none := by
    refine ⟨"X", by decide, by decide⟩
  exact ⟨h1, h2, h3, C7_unknown_element exCR geomX2 1 h1 h2 h3⟩

lemma get_B_mat_eq {CR : String → Option ℚ} {geom : Geom} {factor : ℚ}
    {bond_inds : List (ℕ × ℕ)} {bend_inds : List (ℕ × ℕ × ℕ)}
    (hbond : get_bond_indices CR geom factor = .ok bond_inds)
    (hbend : get_bending_indices bond_inds = .ok bend_inds) :
    get_B_mat CR geom factor = .ok (
      bond_inds.map (fun ind => get_bond_B geom.coords.length (coordsR geom) ind) ++
      bend_inds.map (fun ind => get_angle_B geom.coords.length (coordsR geom) ind) ++
      (get_dihedral_indices bond_inds bend_inds).map (fun ind =>
        match ind with
        | [m, o, p, n] => get_dihedral_B geom.coords.length (coordsR geom) m o p n
        | _ => [])) := by
  simp only [get_B_mat, hbond, hbend]

lemma mem_listProd {α β : Type} {xs : List α} {ys : List β} {pr : α × β} :
    pr ∈ listProd xs ys ↔ pr.1 ∈ xs ∧ pr.2 ∈ ys := by
  obtain ⟨x, y⟩ := pr
  simp only [listProd, List.mem_flatMap, List.mem_map, Prod.mk.injEq]
  constructor
  · rintro ⟨a, ha, b, hb, rfl, rfl⟩
    exact ⟨ha, hb⟩
  · rintro ⟨hx, hy⟩
    exact ⟨x, hx, y, hy, rfl, rfl⟩

lemma appendNew_mem (acc : List (List ℕ) × List (Finset ℕ)) (dind : List ℕ) :
    ∀ d ∈ (if dind.toFinset ∈ acc.2 then acc
      else (acc.1 ++ [dind], acc.2 ++ [dind.toFinset])).1,
      d ∈ acc.1 ∨ d = dind := by
  by_cases hmem : dind.toFinset ∈ acc.2
  · rw [if_pos hmem]
    exact fun d hd => Or.inl hd
  · rw [if_neg hmem]
    intro d hd
    rcases List.mem_append.mp hd with h | h
    · exact Or.inl h
    · exact Or.inr (List.mem_singleton.mp h)

lemma dihedStep_mem (acc : List (List ℕ) × List (Finset ℕ)) (pr : (ℕ × ℕ) × (ℕ × ℕ × ℕ)) :
    ∀ d ∈ (dihedStep acc pr).1,
      d ∈ acc.1 ∨ ((∃ m o p n, d = [m, o, p, n]) ∧
        ∀ x ∈ d, x = pr.1.1 ∨ x = pr.1.2 ∨ x = pr.2.1 ∨ x = pr.2.2.1 ∨ x = pr.2.2.2) := by
  intro d hd
  simp only [dihedStep] at hd
  split at hd
  · split at hd
    · rcases appendNew_mem _ _ d hd with h | rfl
      · exact Or.inl h
      · right
        constructor
        · split
          · exact ⟨_, _, _, _, rfl⟩
          · exact ⟨_, _, _, _, rfl⟩
        · intro x hx
          split at hx <;>
          · simp only [List.mem_cons, List.not_mem_nil, or_false] at hx
            rcases hx with rfl | rfl | rfl | rfl
            all_goals first
              | (left; split <;> simp)
              | (right; left; rfl)
              | (right; right; left; rfl)
              | (right; right; right; left; rfl)
              | (right; right; right; right; rfl)
              | (split <;> simp)
    · exact Or.inl hd
  · exact Or.inl hd

lemma dihedFold_mem (bond_inds : List (ℕ × ℕ)) (bend_inds : List (ℕ × ℕ × ℕ)) :
    ∀ (l : List ((ℕ × ℕ) × (ℕ × ℕ × ℕ))) (acc : List (List ℕ) × List (Finset ℕ)),
    (∀ pr ∈ l, pr.1 ∈ bond_inds ∧ pr.2 ∈ bend_inds) →
    (∀ d ∈ acc.1, (∃ m o p n, d = [m, o, p, n]) ∧
      ∀ x ∈ d, (∃ b ∈ bond_inds, x = b.1 ∨ x = b.2) ∨
        (∃ t ∈ bend_inds, x = t.1 ∨ x = t.2.1 ∨ x = t.2.2)) →
    ∀ d ∈ (l.foldl dihedStep acc).1, (∃ m o p n, d = [m, o, p, n]) ∧
      ∀ x ∈ d, (∃ b ∈ bond_inds, x = b.1 ∨ x = b.2) ∨
        (∃ t ∈ bend_inds, x = t.1 ∨ x = t.2.1 ∨ x = t.2.2) := by
  intro l
  induction l with
  | nil => exact fun acc _ hacc d hd => hacc d hd
  | cons pr rest ih =>
    intro acc hl hacc
    obtain ⟨hb, he⟩ := hl pr (List.mem_cons_self _ _)
    refine ih (dihedStep acc pr) (fun q hq => hl q (List.mem_cons_of_mem _ hq)) ?_
    intro d hd
    rcases dihedStep_mem acc pr d hd with h | ⟨hshape, hmem⟩
    · exact hacc d h
    · refine ⟨hshape, ?_⟩
      intro x hx
      rcases hmem x hx with h | h | h | h | h
      · exact Or.inl ⟨pr.1, hb, Or.inl h⟩
      · exact Or.inl ⟨pr.1, hb, Or.inr h⟩
      · exact Or.inr ⟨pr.2, he, Or.inl h⟩
      · exact Or.inr ⟨pr.2, he, Or.inr (Or.inl h)⟩
      · exact Or.inr ⟨pr.2, he, Or.inr (Or.inr h)⟩

lemma get_dihedral_indices_mem (bond_inds : List (ℕ × ℕ)) (bend_inds : List (ℕ × ℕ × ℕ)) :
    ∀ d ∈ get_dihedral_indices bond_inds bend_inds,
      (∃ m o p n, d = [m, o, p, n]) ∧
      ∀ x ∈ d, (∃ b ∈ bond_inds, x = b.1 ∨ x = b.2) ∨
        (∃ t ∈ bend_inds, x = t.1 ∨ x = t.2.1 ∨ x = t.2.2) := by
  unfold get_dihedral_indices
  exact dihedFold_mem bond_inds bend_inds _ ([], [])
    (fun pr hpr => mem_listProd.mp hpr) (by simp)

/-- C9: the assembled B-matrix is exactly the ordered stack of all bond
rows, then all angle rows, then all dihedral rows, each group in
generation order, with shape
`(bonds + angles + dihedrals, 3 × atom count)`. -/
theorem C9_B_matrix_stack (CR : String → Option ℚ) (geom : Geom) (factor : ℚ)
    (bond_inds : List (ℕ × ℕ)) (bend_inds : List (ℕ × ℕ × ℕ))
    (hbond : get_bond_indices CR geom factor = .ok bond_inds)
    (hbend : get_bending_indices bond_inds = .ok bend_inds) :
    ∃ M, get_B_mat CR geom factor = .ok M ∧
      M = bond_inds.map (fun ind => get_bond_B geom.coords.length (coordsR geom) ind) ++
          bend_inds.map (fun ind => get_angle_B geom.coords.length (coordsR geom) ind) ++
          (get_dihedral_indices bond_inds bend_inds).map (fun ind =>
            match ind with
            | [m, o, p, n] => get_dihedral_B geom.coords.length (coordsR geom) m o p n
            | _ => []) ∧
      M.length = bond_inds.length + bend_inds.length +
        (get_dihedral_indices bond_inds bend_inds).length ∧
      ∀ row ∈ M, row.length = 3 * geom.coords.length := by
  refine ⟨_, get_B_mat_eq hbond hbend, rfl, ?_, ?_⟩
  · simp only [List.length_append, List.length_map]
  · intro row hrow
    rcases List.mem_append.mp hrow with h | h
    · rcases List.mem_append.mp h with h' | h'
      · obtain ⟨ind, -, rfl⟩ := List.mem_map.mp h'
        exact flattenRow_length _ _
      · obtain ⟨ind, -, rfl⟩ := List.mem_map.mp h'
        exact flattenRow_length _ _
    · obtain ⟨ind, hind, rfl⟩ := List.mem_map.mp h
      obtain ⟨⟨m, o, p, n, rfl⟩, -⟩ := get_dihedral_indices_mem bond_inds bend_inds ind hind
      exact flattenRow_length _ _

/-- Witness for C9 on the bent three-atom example: two bonds, one angle,
no dihedrals, B-matrix of shape `(3, 9)`. -/
theorem C9_B_matrix_stack_witness :
    get_bond_indices exCR geomW 1 = .ok [(0, 1), (0, 2)] ∧
    get_bending_indices [(0, 1), (0, 2)] = .ok [(1, 0, 2)] ∧
    ∃ M, get_B_mat exCR geomW 1 = .ok M ∧
      M = [(0, 1), (0, 2)].map
            (fun ind => get_bond_B geomW.coords.length (coordsR geomW) ind) ++
          [((1 : ℕ), (0 : ℕ), (2 : ℕ))].map
            (fun ind => get_angle_B geomW.coords.length (coordsR geomW) ind) ++
          (get_dihedral_indices [(0, 1), (0, 2)] [(1, 0, 2)]).map (fun ind =>
            match ind with
            | [m, o, p, n] => get_dihedral_B geomW.coords.length (coordsR geomW) m o p n
            | _ => []) ∧
      M.length = [(0, 1), (0, 2)].length + [((1 : ℕ), (0 : ℕ), (2 : ℕ))].length +
        (get_dihedral_indices [(0, 1), (0, 2)] [(1, 0, 2)]).length ∧
      ∀ row ∈ M, row.length = 3 * geomW.coords.length := by
  have hbend : get_bending_indices [(0, 1), (0, 2)] = .ok [(1, 0, 2)] := by decide
  exact ⟨geomW_bonds, hbend,
    C9_B_matrix_stack exCR geomW 1 [(0, 1), (0, 2)] [(1, 0, 2)] geomW_bonds hbend⟩

lemma bondSets_atom {bonds : List (ℕ × ℕ)} {s : Finset ℕ} (hs : s ∈ bondSetsOf bonds)
    {x : ℕ} (hx : x ∈ s) : ∃ q ∈ bonds, x = q.1 ∨ x = q.2 := by
  obtain ⟨q, hq, rfl⟩ := List.mem_map.mp (List.mem_dedup.mp hs)
  rcases Finset.mem_insert.mp hx with h | h
  · exact ⟨q, hq, Or.inl h⟩
  · exact ⟨q, hq, Or.inr (Finset.mem_singleton.mp h)⟩

lemma qdistSq_comm (x y : QVec3) : qdistSq x y = qdistSq y x := by
  unfold qdistSq
  ring

/-- C8 (amended): provided bond detection succeeds (which requires at
least one bond among the remaining atoms, see
`C8_all_isolated_counterexample`), an atom whose distance to every other
atom exceeds the bonding threshold appears in no bond, no angle triple,
no dihedral quadruple and no fragment, and the pipeline still returns
the coordinate sets and B-matrix for the remaining atoms. -/
theorem C8_isolated_atom (CR : String → Option ℚ) (geom : Geom) (factor : ℚ) (a : ℕ)
    (bond_inds : List (ℕ × ℕ))
    (hbond : get_bond_indices CR geom factor = .ok bond_inds)
    (hiso : ∀ k, k < geom.coords.length → k ≠ a →
      ∀ a1 a2 r1 r2, geom.atoms.get? a = some a1 → geom.atoms.get? k = some a2 →
        CR (strLower a1) = some r1 → CR (strLower a2) = some r2 →
        (factor : ℝ) * ((r1 : ℝ) + (r2 : ℝ)) <
          Real.sqrt ((qdistSq (geom.coords.getD a 0) (geom.coords.getD k 0) : ℚ) : ℝ)) :
    (∀ p ∈ bond_inds, p.1 ≠ a ∧ p.2 ≠ a) ∧
    ∃ bend_inds, get_bending_indices bond_inds = .ok bend_inds ∧
      (∀ t ∈ bend_inds, t.1 ≠ a ∧ t.2.1 ≠ a ∧ t.2.2 ≠ a) ∧
      (∀ d ∈ get_dihedral_indices bond_inds bend_inds, a ∉ d) ∧
      (∀ frags, make_fragments bond_inds = .ok frags → ∀ f ∈ frags, a ∉ f) ∧
      (∃ M, get_B_mat CR geom factor = .ok M) := by
  obtain ⟨sums, hcv, hbsel, -⟩ := get_bond_indices_ok hbond
  have hmem := selectBonds_covRad_mem
    (fun p => qdistSq (geom.coords.getD p.1 0) (geom.coords.getD p.2 0)) _ _ hcv
  have hnoa : ∀ p ∈ bond_inds, p.1 ≠ a ∧ p.2 ≠ a := by
    intro p hp
    rw [hbsel] at hp
    obtain ⟨hpairs, a1, a2, r1, r2, h1, h2, h3, h4, hflag⟩ := (hmem p).mp hp
    obtain ⟨hlt, hlt2⟩ := mem_atomPairs.mp hpairs
    have hsqrt := (bondFlag_iff_sqrt (qdistSq_nonneg _ _)).mp hflag
    push_cast at hsqrt
    constructor
    · intro he
      have hne2 : p.2 ≠ a := by omega
      have := hiso p.2 hlt2 hne2 a1 a2 r1 r2 (he ▸ h1) h2 h3 h4
      rw [← he] at this
      linarith
    · intro he
      have hne1 : p.1 ≠ a := by omega
      have hlt1 : p.1 < geom.coords.length := lt_trans hlt hlt2
      have := hiso p.1 hlt1 hne1 a2 a1 r2 r1 (he ▸ h2) h1 h4 h3
      rw [← he, qdistSq_comm] at this
      linarith
  have hb : ∀ p ∈ bond_inds, p.1 ≠ p.2 := by
    intro p hp
    rw [hbsel] at hp
    obtain ⟨hpairs, -⟩ := (hmem p).mp hp
    obtain ⟨hlt, -⟩ := mem_atomPairs.mp hpairs
    omega
  obtain ⟨bend_inds, hbe, hprop⟩ := bendLoop_ok _ (bondSets_pairs_cards hb)
  have hbend : get_bending_indices bond_inds = .ok bend_inds := hbe
  have hbatoms : ∀ t ∈ bend_inds, t.1 ≠ a ∧ t.2.1 ≠ a ∧ t.2.2 ≠ a := by
    intro t ht
    obtain ⟨s1, s2, hsmem, -, -, -, hun, -, -⟩ := hprop t ht
    obtain ⟨hs1, hs2⟩ := listPairs_mem _ hsmem
    have hin : ∀ x ∈ ({t.1, t.2.1, t.2.2} : Finset ℕ), x ≠ a := by
      intro x hx
      have : x ∈ s1 ∪ s2 := hun ▸ hx
      rcases Finset.mem_union.mp this with h | h
      · obtain ⟨q, hq, hxq⟩ := bondSets_atom hs1 h
        obtain ⟨hq1, hq2⟩ := hnoa q hq
        rcases hxq with rfl | rfl
        · exact hq1
        · exact hq2
      · obtain ⟨q, hq, hxq⟩ := bondSets_atom hs2 h
        obtain ⟨hq1, hq2⟩ := hnoa q hq
        rcases hxq with rfl | rfl
        · exact hq1
        · exact hq2
    exact ⟨hin t.1 (by simp), hin t.2.1 (by simp), hin t.2.2 (by simp)⟩
  refine ⟨hnoa, bend_inds, hbend, hbatoms, ?_, ?_, ?_⟩
  · intro d hd had
    obtain ⟨-, hdm⟩ := get_dihedral_indices_mem bond_inds bend_inds d hd
    rcases hdm a had with ⟨q, hq, hxq⟩ | ⟨t, ht, hxt⟩
    · obtain ⟨hq1, hq2⟩ := hnoa q hq
      rcases hxq with h | h
      · exact hq1 h.symm
      · exact hq2 h.symm
    · obtain ⟨ht1, ht2, ht3⟩ := hbatoms t ht
      rcases hxt with h | h | h
      · exact ht1 h.symm
      · exact ht2 h.symm
      · exact ht3 h.symm
  · intro frags hfr f hf haf
    obtain ⟨q, hq, hxq⟩ := (make_fragments_spec hfr).2 f hf a haf
    obtain ⟨hq1, hq2⟩ := hnoa q hq
    rcases hxq with h | h
    · exact hq1 h.symm
    · exact hq2 h.symm
  · exact ⟨_, get_B_mat_eq hbond hbend⟩

/-- Counterexample for C8's parenthetical: in a geometry where every atom
is isolated the bond list is empty, popping its first element fails, and
the pipeline returns `IndexError` instead of the coordinate sets. -/
theorem C8_all_isolated_counterexample :
    get_bond_indices exCR geomFar 1 = .error .indexError ∧
    get_B_mat exCR geomFar 1 = .error .indexError := by
  have hH : strLower "H" = "h" := by decide
  have hh : ("h" : String) ≠ "o" := by decide
  have hb : get_bond_indices exCR geomFar 1 = .error .indexError := by
    norm_num [get_bond_indices, geomFar, atomPairs, List.range_succ, covRadSums, hH, hh, exCR,
      qdistSq, selectBonds, bondFlag, make_fragments]
  exact ⟨hb, by simp only [get_B_mat, hb]⟩

lemma geomIso_bonds : get_bond_indices exCR geomIso 1 = .ok [(0, 1), (0, 2)] := by
  have hO : strLower "O" = "o" := by decide
  have hH : strLower "H" = "h" := by decide
  have hh : ("h" : String) ≠ "o" := by decide
  norm_num [get_bond_indices, geomIso, atomPairs, List.range_succ, covRadSums, hO, hH, hh, exCR,
    qdistSq, selectBonds, bondFlag, make_fragments]

lemma geomIso_iso : ∀ k, k < geomIso.coords.length → k ≠ 3 →
    ∀ a1 a2 r1 r2, geomIso.atoms.get? 3 = some a1 → geomIso.atoms.get? k = some a2 →
      exCR (strLower a1) = some r1 → exCR (strLower a2) = some r2 →
      ((1 : ℚ) : ℝ) * ((r1 : ℝ) + (r2 : ℝ)) <
        Real.sqrt ((qdistSq (geomIso.coords.getD 3 0) (geomIso.coords.getD k 0) : ℚ) : ℝ) := by
  intro k hk hk3 a1 a2 r1 r2 h1 h2 h3 h4
  have e1 : geomIso.atoms.get? 3 = some "H" := rfl
  rw [e1] at h1
  obtain rfl : a1 = "H" := (Option.some.inj h1).symm
  have hlH : strLower "H" = "h" := by decide
  have hhno : ("h" : String) ≠ "o" := by decide
  have e3 : exCR (strLower "H") = some (1/8 : ℚ) := by
    rw [hlH]
    simp [exCR, hhno]
  rw [e3] at h3
  obtain rfl : r1 = 1/8 := (Option.some.inj h3).symm
  have hk' : k < 4 := hk
  interval_cases k
  · have e2 : geomIso.atoms.get? 0 = some "O" := rfl
    rw [e2] at h2
    obtain rfl : a2 = "O" := (Option.some.inj h2).symm
    have hlO : strLower "O" = "o" := by decide
    have e4 : exCR (strLower "O") = some (1/2 : ℚ) := by
      rw [hlO]
      simp [exCR]
    rw [e4] at h4
    obtain rfl : r2 = 1/2 := (Option.some.inj h4).symm
    have hd : (qdistSq (geomIso.coords.getD 3 0) (geomIso.coords.getD 0 0) : ℚ) = 10000 := by
      norm_num [geomIso, qdistSq]
    rw [hd]
    have hs : Real.sqrt ((10000 : ℚ) : ℝ) = 100 := by
      rw [show ((10000 : ℚ) : ℝ) = (100 : ℝ) ^ 2 by norm_num]
      exact Real.sqrt_sq (by norm_num)
    rw [hs]
    norm_num
  · have e2 : geomIso.atoms.get? 1 = some "H" := rfl
    rw [e2] at h2
    obtain rfl : a2 = "H" := (Option.some.inj h2).symm
    rw [e3] at h4
    obtain rfl : r2 = 1/8 := (Option.some.inj h4).symm
    have hd : (qdistSq (geomIso.coords.getD 3 0) (geomIso.coords.getD 1 0) : ℚ) = 39601/4 := by
      norm_num [geomIso, qdistSq]
    rw [hd]
    have hs : Real.sqrt ((39601/4 : ℚ) : ℝ) = 199/2 := by
      rw [show ((39601/4 : ℚ) : ℝ) = ((199 : ℝ)/2) ^ 2 by norm_num]
      exact Real.sqrt_sq (by norm_num)
    rw [hs]
    norm_num
  · have e2 : geomIso.atoms.get? 2 = some "H" := rfl
    rw [e2] at h2
    obtain rfl : a2 = "H" := (Option.some.inj h2).symm
    rw [e3] at h4
    obtain rfl : r2 = 1/8 := (Option.some.inj h4).symm
    have hd : (qdistSq (geomIso.coords.getD 3 0) (geomIso.coords.getD 2 0) : ℚ) = 40001/4 := by
      norm_num [geomIso, qdistSq]
    rw [hd]
    have hone : (1 : ℝ) ≤ Real.sqrt ((40001/4 : ℚ) : ℝ) := by
      rw [show (1 : ℝ) = Real.sqrt 1 from Real.sqrt_one.symm]
      apply Real.sqrt_le_sqrt
      norm_num
    have : ((1 : ℚ) : ℝ) * (((1/8 : ℚ) : ℝ) + ((1/8 : ℚ) : ℝ)) = 1/4 := by norm_num
    rw [this]
    linarith
  · exact absurd rfl hk3

/-- Witness for C8 (amended): in `geomIso` atom 3 is isolated while atoms
0–2 form two bonds, and the pipeline succeeds without atom 3 appearing in
any bond, angle, dihedral or fragment. -/
theorem C8_isolated_atom_witness :
    get_bond_indices exCR geomIso 1 = .ok [(0, 1), (0, 2)] ∧
    (∀ k, k < geomIso.coords.length → k ≠ 3 →
      ∀ a1 a2 r1 r2, geomIso.atoms.get? 3 = some a1 → geomIso.atoms.get? k = some a2 →
        exCR (strLower a1) = some r1 → exCR (strLower a2) = some r2 →
        ((1 : ℚ) : ℝ) * ((r1 : ℝ) + (r2 : ℝ)) <
          Real.sqrt ((qdistSq (geomIso.coords.getD 3 0) (geomIso.coords.getD k 0) : ℚ) : ℝ)) ∧
    ((∀ p ∈ [((0 : ℕ), (1 : ℕ)), (0, 2)], p.1 ≠ 3 ∧ p.2 ≠ 3) ∧
      ∃ bend_inds, get_bending_indices [(0, 1), (0, 2)] = .ok bend_inds ∧
        (∀ t ∈ bend_inds, t.1 ≠ 3 ∧ t.2.1 ≠ 3 ∧ t.2.2 ≠ 3) ∧
        (∀ d ∈ get_dihedral_indices [(0, 1), (0, 2)] bend_inds, 3 ∉ d) ∧
        (∀ frags, make_fragments [(0, 1), (0, 2)] = .ok frags → ∀ f ∈ frags, 3 ∉ f) ∧
        (∃ M, get_B_mat exCR geomIso 1 = .ok M)) :=
  ⟨geomIso_bonds, geomIso_iso,
    C8_isolated_atom exCR geomIso 1 3 [(0, 1), (0, 2)] geomIso_bonds geomIso_iso⟩
